import Mathlib

/-!
Verification of the emmaze/mazeing maze library.

The Python sources are shallowly embedded here:

* `src/mazeing/maze.py` — grid model (`Position`, `DirectionInfo`, `MazeExit`,
  `WallLine`, `Maze`) and the generator (`MazeWorker`, `MazeConstructor`,
  `make_maze`).
* `src/emmaze/solutions.py` — `MazePath` and `MazeSolver`.
* `src/emmaze/svgmazes.py` — `GraphicalCoordinates`, `GraphicalPath`,
  `WallFace`, `WallTracker`, `WallFollowerSVGData`.

Python `int` is embedded as `Int`.  The per-line wall dictionaries
(`WallLine.wallstatus`, keyed `0..length`) are embedded as total functions
`Int → Int → Bool`; every key read performed by the embedded code paths is
guarded by the same range checks the Python code performs before indexing,
so the values outside the dictionaries' key ranges are never observed.
Python floats in `svgmazes.py` are embedded as rationals; the concrete
inputs used in theorems below keep every comparison far away from the
tolerance boundary, so the float/rational distinction does not affect any
comparison outcome used here.  Randomness (`random`, `choice`, `sample`) is
embedded as an explicit oracle parameter, universally quantified, so the
theorems hold for every outcome of the random choices.
-/

namespace Emmaze

/-- The four cardinal directions (`DIRECTION_TYPE` in `maze.py`). -/
inductive Dir where
  | north
  | south
  | east
  | west
deriving DecidableEq, Repr

/-- The fixed direction list `DIRECTIONS = ["north", "west", "south", "east"]`
from `maze.py` (counterclockwise order). -/
def DIRECTIONS : List Dir := [.north, .west, .south, .east]

/-- Index of a direction inside `DIRECTIONS` (`DIRECTIONS.index`). -/
def dirIndex : Dir → Nat
  | .north => 0
  | .west => 1
  | .south => 2
  | .east => 3

/-- `Position`: the (row, column) cell coordinate dataclass of `maze.py`. -/
structure Pos where
  row : Int
  column : Int
deriving DecidableEq, Repr

/-- `Position.__add__`. -/
def Pos.add (p q : Pos) : Pos := ⟨p.row + q.row, p.column + q.column⟩

/-- `Position.neighbor`: the four adjacent positions, no bounds checking. -/
def Pos.neighbor (p : Pos) : Dir → Pos
  | .north => ⟨p.row - 1, p.column⟩
  | .south => ⟨p.row + 1, p.column⟩
  | .east => ⟨p.row, p.column + 1⟩
  | .west => ⟨p.row, p.column - 1⟩

/-- Wall orientation: `"NS"` (north-south) or `"EW"` (east-west). -/
inductive Orient where
  | NS
  | EW
deriving DecidableEq, Repr

/-- The `(orientation, row, col)` triple that indexes one wall segment. -/
structure WallCoord where
  orient : Orient
  row : Int
  col : Int
deriving DecidableEq, Repr

/-- `Position.convert_wall_coordinates`. -/
def Pos.convertWallCoordinates (p : Pos) : Dir → WallCoord
  | .north => ⟨.EW, p.row, p.column⟩
  | .south => ⟨.EW, p.row + 1, p.column⟩
  | .east => ⟨.NS, p.row, p.column + 1⟩
  | .west => ⟨.NS, p.row, p.column⟩

/-- `MazeExit`: a (wall side, offset) pair. -/
structure MazeExit where
  wall : Dir
  location : Int
deriving DecidableEq, Repr

/-- `Maze`: rows, cols, exits and the two wall-line collections.
`ns c r` is `_ns_walls[c].wallstatus[r]`, `ew r c` is
`_ew_walls[r].wallstatus[c]` (`true` = wall present). -/
structure Maze where
  rows : Int
  cols : Int
  exits : List MazeExit
  ns : Int → Int → Bool
  ew : Int → Int → Bool

/-- `MazeExit.cell_position`: the interior cell adjacent to the exit. -/
def MazeExit.cellPosition (e : MazeExit) (m : Maze) : Pos :=
  match e.wall with
  | .north => ⟨0, e.location⟩
  | .west => ⟨e.location, 0⟩
  | .east => ⟨e.location, m.cols - 1⟩
  | .south => ⟨m.rows - 1, e.location⟩

/-- Update one entry of a two-argument boolean table (a `wallstatus` write). -/
def updTable (f : Int → Int → Bool) (a b : Int) (v : Bool) : Int → Int → Bool :=
  fun x y => if x = a ∧ y = b then v else f x y

/-- Open the wall for one exit, as done in the loop of `Maze.__init__`:
north/south exits clear `_ew_walls[row + offset].wallstatus[col]`,
east/west exits clear `_ns_walls[col + offset].wallstatus[row]`. -/
def applyExit (m : Maze) (e : MazeExit) : Maze :=
  let cp := e.cellPosition m
  match e.wall with
  | .north => { m with ew := updTable m.ew (cp.row + 0) cp.column false }
  | .south => { m with ew := updTable m.ew (cp.row + 1) cp.column false }
  | .west => { m with ns := updTable m.ns (cp.column + 0) cp.row false }
  | .east => { m with ns := updTable m.ns (cp.column + 1) cp.row false }

/-- `Maze.__init__` for `rows, cols ≥ 0`: every wall starts present, then the
declared exits are opened in order.  (For `rows, cols ≥ 0` the Python list
indexing in the exit loop is always in range — the indices used are `0` or
`rows` into a list of length `rows + 1`, resp. `0` or `cols` into one of
length `cols + 1` — so the constructor cannot raise; `mazeInitChecked` below
models the only raising case, `rows < 0` or `cols < 0` with a matching exit,
where the accessed line list is empty.) -/
def mazeInit (rows cols : Int) (exits : List MazeExit) : Maze :=
  exits.foldl applyExit
    { rows := rows, cols := cols, exits := exits
      ns := fun _ _ => true, ew := fun _ _ => true }

/-- `Maze.__init__` with the possible `IndexError` made explicit: a
north/south exit indexes the east-west line list (length `rows + 1`, so empty
exactly when `rows < 0`), an east/west exit indexes the north-south line list
(length `cols + 1`, empty exactly when `cols < 0`).  The offset `location`
itself is written into a dict and is never range-checked by the code. -/
def mazeInitChecked (rows cols : Int) (exits : List MazeExit) : Option Maze :=
  if exits.all (fun e =>
      match e.wall with
      | .north => 0 ≤ rows
      | .south => 0 ≤ rows
      | .west => 0 ≤ cols
      | .east => 0 ≤ cols) then
    some (mazeInit rows cols exits)
  else none

/-- `Maze.valid_cell`. -/
def Maze.validCell (m : Maze) (p : Pos) : Prop :=
  0 ≤ p.row ∧ p.row < m.rows ∧ 0 ≤ p.column ∧ p.column < m.cols

instance (m : Maze) (p : Pos) : Decidable (m.validCell p) := by
  unfold Maze.validCell; infer_instance

/-- `Maze.retrieve_wall`. -/
def Maze.retrieveWall (m : Maze) (w : WallCoord) : Bool :=
  match w.orient with
  | .NS => m.ns w.col w.row
  | .EW => m.ew w.row w.col

/-- `Maze.remove_wall`. -/
def Maze.removeWall (m : Maze) (w : WallCoord) : Maze :=
  match w.orient with
  | .NS => { m with ns := updTable m.ns w.col w.row false }
  | .EW => { m with ew := updTable m.ew w.row w.col false }

/-- `Maze.remove_wall_cell_direction`. -/
def Maze.removeWallCellDirection (m : Maze) (p : Pos) (d : Dir) : Maze :=
  m.removeWall (p.convertWallCoordinates d)

/-- The coordinate-validity test performed inline in `Maze.cell_walls`:
`info[1] >= 0 and (info[1] < rows or (info[1] == rows and info[0] == "EW"))
and (info[2] >= 0 and (info[2] < cols or (info[2] == cols and info[0] ==
"NS")))`. -/
def Maze.validWallCoord (m : Maze) (w : WallCoord) : Prop :=
  0 ≤ w.row ∧ (w.row < m.rows ∨ (w.row = m.rows ∧ w.orient = .EW)) ∧
    (0 ≤ w.col ∧ (w.col < m.cols ∨ (w.col = m.cols ∧ w.orient = .NS)))

instance (m : Maze) (w : WallCoord) : Decidable (m.validWallCoord w) := by
  unfold Maze.validWallCoord; infer_instance

/-- `Maze.cell_walls`, as a per-direction boolean view: a direction whose
wall coordinates pass the validity check reports the stored wall value, any
other direction reports the `from_mapping` default `False`. -/
def Maze.cellWalls (m : Maze) (p : Pos) (d : Dir) : Bool :=
  let w := p.convertWallCoordinates d
  if m.validWallCoord w then m.retrieveWall w else false

/-- `OPPOSITE` in `svgmazes.py`: `DIRECTIONS[(idx + 2) % 4]`. -/
def Dir.opposite : Dir → Dir
  | .north => .south
  | .west => .east
  | .south => .north
  | .east => .west

/-- `NEXT_DIRECTION` in `svgmazes.py`: `DIRECTIONS[(idx + 1) % 4]`
(one step counterclockwise). -/
def Dir.nextDir : Dir → Dir
  | .north => .west
  | .west => .south
  | .south => .east
  | .east => .north

theorem dir_opposite_eq_table (d : Dir) :
    d.opposite = (DIRECTIONS.getD ((dirIndex d + 2) % 4) .north) := by
  cases d <;> rfl

theorem dir_nextDir_eq_table (d : Dir) :
    d.nextDir = (DIRECTIONS.getD ((dirIndex d + 1) % 4) .north) := by
  cases d <;> rfl

theorem neighbor_opposite (p : Pos) (d : Dir) :
    (p.neighbor d).neighbor d.opposite = p := by
  cases d <;> simp [Pos.neighbor, Dir.opposite]

theorem neighbor_ne (p : Pos) (d : Dir) : p.neighbor d ≠ p := by
  obtain ⟨r, c⟩ := p
  cases d <;> intro h <;> rw [Pos.mk.injEq] at h <;>
    simp only [Pos.neighbor] at h <;> omega

/-- The two sides of one shared wall name the same storage key:
`convert_wall_coordinates` of a cell/direction and of the neighbouring
cell/opposite direction agree. -/
theorem convert_shared_key (p : Pos) (d : Dir) :
    (p.neighbor d).convertWallCoordinates d.opposite =
      p.convertWallCoordinates d := by
  cases d <;> simp [Pos.neighbor, Dir.opposite, Pos.convertWallCoordinates]

/-- `cell_walls` of neighbouring cells agree on their shared wall, for every
maze record and every position (validity of the shared coordinate is decided
on the same key from both sides). -/
theorem cellWalls_shared (m : Maze) (p : Pos) (d : Dir) :
    m.cellWalls (p.neighbor d) d.opposite = m.cellWalls p d := by
  unfold Maze.cellWalls
  rw [convert_shared_key]

/-- C4: for every maze state (any wall assignment, hence any state reachable
by construction, wall removal or import) and every pair of adjacent in-bounds
cells `A` and `B`, `convert_wall_coordinates` maps `(A, direction toward B)`
and `(B, direction toward A)` to the same storage key, and therefore
`cell_walls` of the two cells agree on the shared wall. -/
theorem wall_symmetry (m : Maze) (A B : Pos) (d : Dir) (hAB : B = A.neighbor d)
    (hA : m.validCell A) (hB : m.validCell B) :
    A.convertWallCoordinates d = B.convertWallCoordinates d.opposite ∧
      m.cellWalls A d = m.cellWalls B d.opposite := by
  subst hAB
  exact ⟨(convert_shared_key A d).symm, (cellWalls_shared m A d).symm⟩

theorem wall_symmetry_witness :
    (⟨0, 1⟩ : Pos) = (⟨0, 0⟩ : Pos).neighbor .east ∧
      (mazeInit 2 2 []).validCell ⟨0, 0⟩ ∧ (mazeInit 2 2 []).validCell ⟨0, 1⟩ ∧
      ((⟨0, 0⟩ : Pos).convertWallCoordinates .east =
          (⟨0, 1⟩ : Pos).convertWallCoordinates Dir.east.opposite ∧
        (mazeInit 2 2 []).cellWalls ⟨0, 0⟩ .east =
          (mazeInit 2 2 []).cellWalls ⟨0, 1⟩ Dir.east.opposite) :=
  ⟨by decide, by decide, by decide,
    wall_symmetry (mazeInit 2 2 []) ⟨0, 0⟩ ⟨0, 1⟩ .east (by decide) (by decide)
      (by decide)⟩

/-- C5, counterexample: the claim says a side whose wall coordinates fall
outside the valid range is reported as walled (`True`); in the code the
`from_mapping` default makes such a side report `False`.  Concretely, in a
1×1 maze the north side of position `(-1, 0)` has wall coordinates
`EW (-1, 0)`, which fail the validity check, and `cell_walls` reports
`False`, not `True`. -/
theorem cellWalls_invalid_side_counterexample :
    ¬ (mazeInit 1 1 []).validWallCoord
        ((⟨-1, 0⟩ : Pos).convertWallCoordinates .north) ∧
      (mazeInit 1 1 []).cellWalls ⟨-1, 0⟩ .north = false := by
  constructor
  · intro h
    rcases h with ⟨h1, _⟩
    simp [Pos.convertWallCoordinates] at h1
  · rfl

/-- C5, amended: a side whose wall coordinates fail the `cell_walls` validity
check (row in `[0, rows]` with `rows` itself allowed only for EW walls, and
column in `[0, cols]` with `cols` itself allowed only for NS walls) is
reported as unwalled (`False`, the `from_mapping` default), not walled. -/
theorem cellWalls_invalid_side_false (m : Maze) (p : Pos) (d : Dir)
    (h : ¬ m.validWallCoord (p.convertWallCoordinates d)) :
    m.cellWalls p d = false := by
  unfold Maze.cellWalls
  simp [h]

theorem cellWalls_invalid_side_false_witness :
    ¬ (mazeInit 3 3 []).validWallCoord
        ((⟨0, 3⟩ : Pos).convertWallCoordinates .north) ∧
      (mazeInit 3 3 []).cellWalls ⟨0, 3⟩ .north = false := by
  have h : ¬ (mazeInit 3 3 []).validWallCoord
      ((⟨0, 3⟩ : Pos).convertWallCoordinates .north) := by
    intro h
    rcases h with ⟨_, _, _, h2⟩
    simp [Pos.convertWallCoordinates, mazeInit] at h2
  exact ⟨h, cellWalls_invalid_side_false (mazeInit 3 3 []) ⟨0, 3⟩ .north h⟩

/-- C6, counterexample: the claim says construction with non-positive
dimensions or an out-of-range exit offset fails; in the code `Maze.__init__`
performs no validation, so a 0×0 maze and a 3×3 maze with a north exit at
offset 99 both construct successfully, and the latter is a usable object
(its cell walls can be queried). -/
theorem maze_construction_no_validation_counterexample :
    (mazeInitChecked 0 0 []).isSome = true ∧
      (mazeInitChecked 3 3 [⟨.north, 99⟩]).isSome = true ∧
      (mazeInit 3 3 [⟨.north, 99⟩]).cellWalls ⟨0, 0⟩ .north = true := by
  refine ⟨rfl, rfl, ?_⟩
  rfl

/-- C6, amended: `Maze.__init__` performs no validation of dimensions or exit
offsets; for any `rows, cols ≥ 0` — in particular non-positive `rows = 0` or
`cols = 0` — and any exit list, including out-of-range offsets, construction
succeeds and yields a usable object.  (The only failing case is an
`IndexError` from a north/south exit with `rows < 0` or an east/west exit
with `cols < 0`, where the indexed wall-line list is empty.) -/
theorem maze_construction_total (rows cols : Int) (exits : List MazeExit)
    (hr : 0 ≤ rows) (hc : 0 ≤ cols) :
    (mazeInitChecked rows cols exits).isSome = true := by
  unfold mazeInitChecked
  have : exits.all (fun e =>
      match e.wall with
      | .north => decide (0 ≤ rows)
      | .south => decide (0 ≤ rows)
      | .west => decide (0 ≤ cols)
      | .east => decide (0 ≤ cols)) = true := by
    rw [List.all_eq_true]
    intro e _
    cases h : e.wall <;> simpa [h] using by omega
  simp only [this]
  rfl

theorem maze_construction_total_witness :
    (0 : Int) ≤ 0 ∧ (mazeInitChecked 0 0 [⟨.north, 99⟩]).isSome = true :=
  ⟨le_refl 0, maze_construction_total 0 0 [⟨.north, 99⟩] (le_refl 0) (le_refl 0)⟩

/-! ## `solutions.py`: `MazePath` and `MazeSolver` -/

/-- `DirectionInfo.with_value` specialised to the use in
`MazePath.__init__`: the set of directions `d` with `pos1.neighbor[d] ==
pos2`, as a list in `DIRECTIONS` order. -/
def withValueDirs (p q : Pos) : List Dir :=
  DIRECTIONS.filter (fun d => p.neighbor d = q)

/-- `MazePath`: a validated sequence of positions. -/
structure MazePath where
  path : List Pos
deriving DecidableEq, Repr

/-- `MazePath.__init__`: succeeds iff for every consecutive pair
`(pos1, pos2)` of the input, `pos1.neighbor.with_value(pos2)` is non-empty;
otherwise a `ValueError` is raised (`none`). -/
def mazePathInit (l : List Pos) : Option MazePath :=
  if (l.zip l.tail).all (fun pq => !(withValueDirs pq.1 pq.2).isEmpty) then
    some ⟨l⟩
  else none

/-- `MazeSolver`'s mutable state. -/
structure SolverState where
  maze : Maze
  start : Pos
  goal : Pos
  visited : List Pos
  path : List Pos
  currentPosition : Pos
  completed : Bool
  active : Bool
  orientation : Dir

/-- `MazeSolver.__init__` (with the default initial orientation `"north"`). -/
def solverInit (m : Maze) (start goal : Pos) : SolverState :=
  { maze := m, start := start, goal := goal, visited := [start],
    path := [start], currentPosition := start, completed := false,
    active := true, orientation := .north }

/-- `MazeSolver.unvisited_neighbors` at the current position: open wall,
in-bounds, not yet visited. -/
def SolverState.unvisitedNb (s : SolverState) (d : Dir) : Bool :=
  !s.maze.cellWalls s.currentPosition d &&
    decide (s.maze.validCell (s.currentPosition.neighbor d)) &&
    !(s.currentPosition.neighbor d ∈ s.visited : Bool)

/-- `MazeSolver.direction_order`:
`[DIRECTIONS[(start_idx - k) % 4] for k in range(4)]` — the directions in
clockwise order starting from the current orientation. -/
def directionOrder (o : Dir) : List Dir :=
  (List.range 4).map (fun k => DIRECTIONS.getD ((dirIndex o + 4 - k) % 4) .north)

/-- `MazeSolver.move` (the caller guarantees the direction is admissible). -/
def SolverState.move (s : SolverState) (d : Dir) : SolverState :=
  let c := s.currentPosition.neighbor d
  { s with
    orientation := d
    currentPosition := c
    visited := s.visited ++ [c]
    path := s.path ++ [c] }

/-- `MazeSolver.backtrack`: pop the path; if non-empty, turn around
(`direction_order[2]`) and go back to the new top; otherwise go inactive. -/
def SolverState.backtrack (s : SolverState) : SolverState :=
  let p := s.path.dropLast
  match p.getLast? with
  | some c =>
      { s with
        path := p
        orientation := (directionOrder s.orientation).getD 2 .north
        currentPosition := c }
  | none => { s with path := p, active := false }

/-- `MazeSolver.step`. -/
def SolverState.step (s : SolverState) : SolverState :=
  let s1 := { s with completed := s.currentPosition = s.goal }
  if s1.active && !s1.completed then
    match (directionOrder s1.orientation).filter s1.unvisitedNb with
    | [] => s1.backtrack
    | d :: _ => s1.move d
  else s1

/-- `MazeSolver.run`: step while active and not completed, then return
`MazePath(self.path)` on completion and raise (`none`) otherwise.  The
`while` loop is modelled with explicit fuel; `none` also covers fuel
exhaustion. -/
def solverRun (s : SolverState) : Nat → Option MazePath
  | 0 => none
  | fuel + 1 =>
      if s.active && !s.completed then solverRun s.step fuel
      else if s.completed then mazePathInit s.path
      else none

/-- Clockwise rotation of a direction (north → east → south → west). -/
def Dir.clockwise : Dir → Dir
  | .north => .east
  | .east => .south
  | .south => .west
  | .west => .north

theorem directionOrder_clockwise (o : Dir) :
    directionOrder o = [o, o.clockwise, o.clockwise.clockwise,
      o.clockwise.clockwise.clockwise] := by
  cases o <;> rfl

theorem clockwise_twice_opposite (o : Dir) :
    o.clockwise.clockwise = o.opposite := by
  cases o <;> rfl

theorem directionOrder_two (o : Dir) :
    (directionOrder o).getD 2 .north = o.opposite := by
  cases o <;> rfl

theorem unvisitedNb_set_completed (s : SolverState) (b : Bool) :
    SolverState.unvisitedNb { s with completed := b } = s.unvisitedNb := rfl

/-- C7: when the solver is active and not at the goal, it tries directions in
clockwise order starting from its current facing (`[o, cw o, cw² o, cw³ o]`,
so facing north: north, east, south, west): if some wall-open, in-bounds,
unvisited neighbour exists it moves into the first one in that order and sets
its facing to the move direction; if none exists it backtracks (popping the
path), and when the popped path is still non-empty it sets its facing two
clockwise steps around — the reverse direction — and returns to the new top
of the path; if the path empties it goes permanently inactive. -/
theorem solver_step_behaviour (s : SolverState)
    (ha : s.active = true) (hg : s.currentPosition ≠ s.goal) :
    directionOrder s.orientation = [s.orientation, s.orientation.clockwise,
        s.orientation.clockwise.clockwise,
        s.orientation.clockwise.clockwise.clockwise] ∧
      (∀ d rest, (directionOrder s.orientation).filter s.unvisitedNb = d :: rest →
        s.step.currentPosition = s.currentPosition.neighbor d ∧
          s.step.orientation = d ∧
          s.step.path = s.path ++ [s.currentPosition.neighbor d] ∧
          s.step.visited = s.visited ++ [s.currentPosition.neighbor d]) ∧
      ((directionOrder s.orientation).filter s.unvisitedNb = [] →
        s.step.path = s.path.dropLast ∧
          (∀ c, s.path.dropLast.getLast? = some c →
            s.step.orientation = s.orientation.opposite ∧
              s.step.currentPosition = c) ∧
          (s.path.dropLast.getLast? = none → s.step.active = false)) := by
  obtain ⟨mz, st, gl, vis, pth, cur, comp, act, ori⟩ := s
  simp only at ha hg ⊢
  subst ha
  have hc : decide (cur = gl) = false := by simp [hg]
  have hstep : SolverState.step ⟨mz, st, gl, vis, pth, cur, comp, true, ori⟩ =
      match (directionOrder ori).filter
          (SolverState.unvisitedNb ⟨mz, st, gl, vis, pth, cur, comp, true, ori⟩) with
      | [] => SolverState.backtrack ⟨mz, st, gl, vis, pth, cur, false, true, ori⟩
      | d :: _ => SolverState.move ⟨mz, st, gl, vis, pth, cur, false, true, ori⟩ d := by
    unfold SolverState.step
    rw [hc]
    rfl
  refine ⟨directionOrder_clockwise ori, ?_, ?_⟩
  · intro d rest hfilter
    rw [hstep, hfilter]
    exact ⟨rfl, rfl, rfl, rfl⟩
  · intro hfilter
    rw [hstep, hfilter]
    unfold SolverState.backtrack
    dsimp only
    refine ⟨?_, ?_, ?_⟩
    · rcases h : pth.dropLast.getLast? with _ | c <;> simp [h]
    · intro c h
      rw [h]
      exact ⟨directionOrder_two ori, rfl⟩
    · intro h
      rw [h]

theorem solver_step_behaviour_witness :
    (solverInit ((mazeInit 1 2 []).removeWallCellDirection ⟨0, 0⟩ .east)
          ⟨0, 0⟩ ⟨0, 1⟩).active = true ∧
      (solverInit ((mazeInit 1 2 []).removeWallCellDirection ⟨0, 0⟩ .east)
          ⟨0, 0⟩ ⟨0, 1⟩).currentPosition ≠
        (solverInit ((mazeInit 1 2 []).removeWallCellDirection ⟨0, 0⟩ .east)
          ⟨0, 0⟩ ⟨0, 1⟩).goal ∧
      (solverInit ((mazeInit 1 2 []).removeWallCellDirection ⟨0, 0⟩ .east)
          ⟨0, 0⟩ ⟨0, 1⟩).step.currentPosition = ⟨0, 1⟩ ∧
      (solverInit ((mazeInit 1 2 []).removeWallCellDirection ⟨0, 0⟩ .east)
          ⟨0, 0⟩ ⟨0, 1⟩).step.orientation = .east := by
  have h := solver_step_behaviour
    (solverInit ((mazeInit 1 2 []).removeWallCellDirection ⟨0, 0⟩ .east)
      ⟨0, 0⟩ ⟨0, 1⟩) rfl (by decide)
  have hf : (directionOrder (solverInit ((mazeInit 1 2 []).removeWallCellDirection
        ⟨0, 0⟩ .east) ⟨0, 0⟩ ⟨0, 1⟩).orientation).filter
      (solverInit ((mazeInit 1 2 []).removeWallCellDirection ⟨0, 0⟩ .east)
        ⟨0, 0⟩ ⟨0, 1⟩).unvisitedNb = [.east] := by decide
  obtain ⟨-, hmove, -⟩ := h
  obtain ⟨h1, h2, -, -⟩ := hmove .east [] hf
  exact ⟨rfl, by decide, h1.trans (by decide), h2⟩

/-- Two positions differ by exactly one unit in exactly one axis. -/
def unitStep (p q : Pos) : Prop :=
  ((q.row - p.row = 1 ∨ q.row - p.row = -1) ∧ q.column = p.column) ∨
    (q.row = p.row ∧ (q.column - p.column = 1 ∨ q.column - p.column = -1))

instance (p q : Pos) : Decidable (unitStep p q) := by
  unfold unitStep; infer_instance

theorem withValueDirs_ne_nil_iff (p q : Pos) :
    withValueDirs p q ≠ [] ↔ unitStep p q := by
  constructor
  · intro h
    obtain ⟨d, hd⟩ := List.exists_mem_of_ne_nil _ h
    rw [withValueDirs, List.mem_filter] at hd
    have hq : p.neighbor d = q := by
      have := hd.2
      simpa using this
    subst hq
    obtain ⟨r, c⟩ := p
    cases d
    · exact Or.inl ⟨Or.inr (by simp [Pos.neighbor]), by simp [Pos.neighbor]⟩
    · exact Or.inl ⟨Or.inl (by simp [Pos.neighbor]), by simp [Pos.neighbor]⟩
    · exact Or.inr ⟨by simp [Pos.neighbor], Or.inl (by simp [Pos.neighbor])⟩
    · exact Or.inr ⟨by simp [Pos.neighbor], Or.inr (by simp [Pos.neighbor])⟩
  · intro h hnil
    obtain ⟨r, c⟩ := p
    obtain ⟨r', c'⟩ := q
    have hmem : ∀ d : Dir, d ∈ DIRECTIONS →
        ¬ (Pos.neighbor ⟨r, c⟩ d = ⟨r', c'⟩) := by
      intro d hd hnb
      have : d ∈ withValueDirs ⟨r, c⟩ ⟨r', c'⟩ := by
        rw [withValueDirs, List.mem_filter]
        exact ⟨hd, by simp [hnb]⟩
      rw [hnil] at this
      exact absurd this (List.not_mem_nil d)
    rcases h with ⟨hr | hr, hc⟩ | ⟨hr, hc | hc⟩
    · refine hmem .south (by decide) ?_
      show (⟨r + 1, c⟩ : Pos) = ⟨r', c'⟩
      rw [Pos.mk.injEq]
      simp only at hr hc
      omega
    · refine hmem .north (by decide) ?_
      show (⟨r - 1, c⟩ : Pos) = ⟨r', c'⟩
      rw [Pos.mk.injEq]
      simp only at hr hc
      omega
    · refine hmem .east (by decide) ?_
      show (⟨r, c + 1⟩ : Pos) = ⟨r', c'⟩
      rw [Pos.mk.injEq]
      simp only at hr hc
      omega
    · refine hmem .west (by decide) ?_
      show (⟨r, c - 1⟩ : Pos) = ⟨r', c'⟩
      rw [Pos.mk.injEq]
      simp only at hr hc
      omega

/-- C8: for a sequence of two or more positions, `MazePath` construction
succeeds if and only if every consecutive pair differs by exactly one unit in
exactly one axis (so any diagonal step, repeated position or longer jump
raises a `ValueError` and yields no `MazePath`). -/
theorem mazePath_validation (l : List Pos) (h : 2 ≤ l.length) :
    (mazePathInit l).isSome = true ↔ ∀ pq ∈ l.zip l.tail, unitStep pq.1 pq.2 := by
  unfold mazePathInit
  constructor
  · intro hs pq hpq
    have hall : (l.zip l.tail).all
        (fun pq => !(withValueDirs pq.1 pq.2).isEmpty) = true := by
      by_contra hnot
      rw [if_neg (by simpa using hnot)] at hs
      exact absurd hs (by simp)
    rw [List.all_eq_true] at hall
    have := hall pq hpq
    rw [Bool.not_eq_eq_eq_not, Bool.not_true, List.isEmpty_eq_false] at this
    exact (withValueDirs_ne_nil_iff pq.1 pq.2).mp this
  · intro hstep
    have hall : (l.zip l.tail).all
        (fun pq => !(withValueDirs pq.1 pq.2).isEmpty) = true := by
      rw [List.all_eq_true]
      intro pq hpq
      rw [Bool.not_eq_eq_eq_not, Bool.not_true, List.isEmpty_eq_false]
      exact (withValueDirs_ne_nil_iff pq.1 pq.2).mpr (hstep pq hpq)
    rw [if_pos hall]
    rfl

theorem mazePath_validation_witness :
    2 ≤ ([⟨0, 0⟩, ⟨0, 1⟩, ⟨1, 1⟩] : List Pos).length ∧
      ((mazePathInit [⟨0, 0⟩, ⟨0, 1⟩, ⟨1, 1⟩]).isSome = true ↔
        ∀ pq ∈ ([⟨0, 0⟩, ⟨0, 1⟩, ⟨1, 1⟩] : List Pos).zip
            ([⟨0, 0⟩, ⟨0, 1⟩, ⟨1, 1⟩] : List Pos).tail, unitStep pq.1 pq.2) :=
  ⟨by decide, mazePath_validation [⟨0, 0⟩, ⟨0, 1⟩, ⟨1, 1⟩] (by decide)⟩

/-- C10: for every maze and every position `p` — including positions outside
the grid or walled off — a solver with start and goal both `p` runs to
completion and returns the one-element path `[p]`: the first step marks the
solver completed because the current position equals the goal, before any
wall, bounds or neighbour check. -/
theorem solver_trivial_goal (m : Maze) (p : Pos) (fuel : Nat) (h : 2 ≤ fuel) :
    solverRun (solverInit m p p) fuel = some ⟨[p]⟩ := by
  obtain ⟨f, rfl⟩ : ∃ f, fuel = f + 2 := ⟨fuel - 2, by omega⟩
  show solverRun (solverInit m p p) (f + 2) = some ⟨[p]⟩
  rw [solverRun]
  rw [if_pos (by rfl)]
  have hstep : (solverInit m p p).step =
      { solverInit m p p with completed := true } := by
    unfold SolverState.step
    have : decide ((solverInit m p p).currentPosition = (solverInit m p p).goal)
        = true := by simp [solverInit]
    rw [this]
    rfl
  rw [hstep, solverRun]
  rw [if_neg (by simp)]
  rw [if_pos rfl]
  rfl

theorem solver_trivial_goal_witness :
    2 ≤ 2 ∧ solverRun (solverInit (mazeInit 1 1 []) ⟨5, 7⟩ ⟨5, 7⟩) 2 =
      some ⟨[⟨5, 7⟩]⟩ :=
  ⟨le_refl 2, solver_trivial_goal (mazeInit 1 1 []) ⟨5, 7⟩ 2 (le_refl 2)⟩

/-! ## `svgmazes.py`: `GraphicalCoordinates` and `GraphicalPath`
(Python floats embedded as rationals; the concrete inputs used below keep
all comparisons far from the tolerance boundary.) -/

/-- `GraphicalCoordinates`. -/
structure GC where
  x : ℚ
  y : ℚ
deriving DecidableEq, Repr

/-- `(a - b).length_squared`. -/
def distSq (a b : GC) : ℚ := (a.x - b.x) ^ 2 + (a.y - b.y) ^ 2

theorem distSq_comm (a b : GC) : distSq a b = distSq b a := by
  unfold distSq; ring

/-- `OrientedLineSegment` (fields `start`/`end`). -/
structure OLS where
  start : GC
  stop : GC
deriving DecidableEq, Repr

/-- `GraphicalPath`: `_coords` and `tolerance`. -/
structure GraphicalPath where
  coords : List GC
  tolerance : ℚ
deriving DecidableEq, Repr

/-- The deduplication fold of `GraphicalPath.__init__` (`check=True`):
append each point only if it is farther than the tolerance from the point
last kept. -/
def dedupAux (tolSq : ℚ) (last : GC) : List GC → List GC
  | [] => []
  | c :: cs =>
      if tolSq < distSq c last then c :: dedupAux tolSq c cs
      else dedupAux tolSq last cs

/-- The full deduplicated list `coord_list` (first point always kept). -/
def dedupCoords (tolSq : ℚ) : List GC → List GC
  | [] => []
  | c :: cs => c :: dedupAux tolSq c cs

/-- The closed-loop normalisation of `GraphicalPath.__init__`: drop the last
point if it is within tolerance of the first. -/
def closeLoop (tolSq : ℚ) (l : List GC) : List GC :=
  if distSq (l.getLastD ⟨0, 0⟩) (l.headD ⟨0, 0⟩) < tolSq then l.dropLast else l

/-- `GraphicalPath.__init__`: `none` on an empty argument (`ValueError`);
with `check=True` deduplicate then normalise the loop; with `check=False`
only drop the final point when it is not farther than the tolerance from the
first. -/
def gpInit (coords : List GC) (tol : ℚ) (check : Bool) : Option GraphicalPath :=
  if coords = [] then none
  else
    match check with
    | true => some ⟨closeLoop (tol ^ 2) (dedupCoords (tol ^ 2) coords), tol⟩
    | false =>
        if tol ^ 2 < distSq (coords.getLastD ⟨0, 0⟩) (coords.headD ⟨0, 0⟩) then
          some ⟨coords, tol⟩
        else some ⟨coords.dropLast, tol⟩

/-- `GraphicalPath.__add__` with an `OrientedLineSegment`: note the
constructor is called with `check=False`, skipping the consecutive-point
deduplication.  `none` models the `IndexError` on an empty `_coords`. -/
def gpAddOLS (gp : GraphicalPath) (o : OLS) : Option GraphicalPath :=
  match gp.coords.getLast? with
  | none => none
  | some la =>
      if distSq la o.start < gp.tolerance ^ 2 then
        gpInit (gp.coords ++ [o.stop]) gp.tolerance false
      else gpInit (gp.coords ++ [o.start, o.stop]) gp.tolerance false

/-- `GraphicalPath.__add__` with another `GraphicalPath`.  In the merge
branch the Python code passes `max(self.tolerance, other.tolerance, False)`
as the `tolerance` positional argument (so `check` keeps its default
`True`); `False` compares as `0`. -/
def gpAddGP (a b : GraphicalPath) : Option GraphicalPath :=
  match a.coords.getLast?, b.coords.head? with
  | some la, some h =>
      if distSq la h < max (a.tolerance ^ 2) (b.tolerance ^ 2) then
        gpInit (a.coords.dropLast ++ b.coords) (max (max a.tolerance b.tolerance) 0) true
      else gpInit (a.coords ++ b.coords) (max a.tolerance b.tolerance) true
  | _, _ => none

/-- `GraphicalPath.__add__` with a `GraphicalCoordinates` point. -/
def gpAddGC (a : GraphicalPath) (c : GC) : Option GraphicalPath :=
  gpInit (a.coords ++ [c]) a.tolerance true

theorem chain'_dedupAux (tolSq : ℚ) (cs : List GC) :
    ∀ last, List.Chain' (fun u v => tolSq < distSq u v) (last :: dedupAux tolSq last cs) := by
  induction cs with
  | nil => intro last; simp [dedupAux]
  | cons c cs ih =>
      intro last
      unfold dedupAux
      by_cases h : tolSq < distSq c last
      · rw [if_pos h]
        exact List.chain'_cons.mpr ⟨by rwa [distSq_comm], ih c⟩
      · rw [if_neg h]
        exact ih last

theorem chain'_dedupCoords (tolSq : ℚ) (coords : List GC) :
    List.Chain' (fun u v => tolSq < distSq u v) (dedupCoords tolSq coords) := by
  cases coords with
  | nil => simp [dedupCoords]
  | cons c cs => exact chain'_dedupAux tolSq cs c

theorem chain'_closeLoop (tolSq : ℚ) (l : List GC)
    (h : List.Chain' (fun u v => tolSq < distSq u v) l) :
    List.Chain' (fun u v => tolSq < distSq u v) (closeLoop tolSq l) := by
  unfold closeLoop
  split
  · exact h.init
  · exact h

theorem gpInit_checked_eq (coords : List GC) (tol : ℚ) (gp : GraphicalPath)
    (h : gpInit coords tol true = some gp) :
    gp = ⟨closeLoop (tol ^ 2) (dedupCoords (tol ^ 2) coords), tol⟩ := by
  unfold gpInit at h
  by_cases hc : coords = []
  · rw [if_pos hc] at h; exact absurd h (by simp)
  · rw [if_neg hc] at h
    exact (Option.some.inj h).symm

/-- C9, counterexample: concatenating an `OrientedLineSegment` with `+` uses
`check=False`, so the result can contain two consecutive points closer than
the tolerance.  With tolerance `1/100`, adding the segment
`(1,0) → (257/256, 0)` to the path `[(0,0), (1,0)]` produces
`[(0,0), (1,0), (257/256,0)]`, whose last two points are at squared distance
`1/65536 < (1/100)²`. -/
theorem gp_add_segment_counterexample :
    gpInit [⟨0, 0⟩, ⟨1, 0⟩] (1 / 100) true =
        some ⟨[⟨0, 0⟩, ⟨1, 0⟩], 1 / 100⟩ ∧
      gpAddOLS ⟨[⟨0, 0⟩, ⟨1, 0⟩], 1 / 100⟩ ⟨⟨1, 0⟩, ⟨257 / 256, 0⟩⟩ =
        some ⟨[⟨0, 0⟩, ⟨1, 0⟩, ⟨257 / 256, 0⟩], 1 / 100⟩ ∧
      distSq ⟨1, 0⟩ ⟨257 / 256, 0⟩ < (1 / 100 : ℚ) ^ 2 := by
  refine ⟨?_, ?_, ?_⟩
  · norm_num [gpInit, dedupCoords, dedupAux, closeLoop, distSq]
    intro h
    simp at h
  · norm_num [gpAddOLS, gpInit, distSq]
    intro h
    simp at h
  · norm_num [distSq]

/-- C9, amended: every `GraphicalPath` built through the `check=True`
constructor path — direct construction from a coordinate sequence,
concatenation with a point, or concatenation with another `GraphicalPath` —
contains no two consecutive points within its tolerance of each other
(strictly: consecutive squared distances exceed `tolerance²`); concatenation
with an `OrientedLineSegment`, however, passes `check=False` and its result
can contain consecutive points closer than the tolerance (see the
counterexample).  The closed-loop normalisation, by contrast, happens on
every construction path: direct construction, `+` with a point and `+` with
another path (both branches) deduplicate and then drop a final point lying
strictly within tolerance of the first kept point, and `+` with a segment,
although it skips deduplication, still drops the final point whenever it is
not farther than the tolerance from the first (in both of its branches). -/
theorem graphicalPath_checked_invariants :
    (∀ (coords : List GC) (tol : ℚ) (gp : GraphicalPath),
        gpInit coords tol true = some gp →
        List.Chain' (fun u v => gp.tolerance ^ 2 < distSq u v) gp.coords) ∧
      (∀ (a : GraphicalPath) (c : GC) (gp : GraphicalPath),
        gpAddGC a c = some gp →
        List.Chain' (fun u v => gp.tolerance ^ 2 < distSq u v) gp.coords) ∧
      (∀ (a b gp : GraphicalPath), gpAddGP a b = some gp →
        List.Chain' (fun u v => gp.tolerance ^ 2 < distSq u v) gp.coords) ∧
      (∀ (coords : List GC) (tol : ℚ),
        coords ≠ [] →
        distSq ((dedupCoords (tol ^ 2) coords).getLastD ⟨0, 0⟩)
            ((dedupCoords (tol ^ 2) coords).headD ⟨0, 0⟩) < tol ^ 2 →
        gpInit coords tol true =
          some ⟨(dedupCoords (tol ^ 2) coords).dropLast, tol⟩) ∧
      (∀ (a : GraphicalPath) (c : GC),
        distSq ((dedupCoords (a.tolerance ^ 2) (a.coords ++ [c])).getLastD
            ⟨0, 0⟩)
            ((dedupCoords (a.tolerance ^ 2) (a.coords ++ [c])).headD
            ⟨0, 0⟩) < a.tolerance ^ 2 →
        gpAddGC a c =
          some ⟨(dedupCoords (a.tolerance ^ 2) (a.coords ++ [c])).dropLast,
            a.tolerance⟩) ∧
      (∀ (a b : GraphicalPath) (la hd : GC),
        a.coords.getLast? = some la → b.coords.head? = some hd →
        distSq la hd < max (a.tolerance ^ 2) (b.tolerance ^ 2) →
        distSq ((dedupCoords (max (max a.tolerance b.tolerance) 0 ^ 2)
            (a.coords.dropLast ++ b.coords)).getLastD ⟨0, 0⟩)
            ((dedupCoords (max (max a.tolerance b.tolerance) 0 ^ 2)
            (a.coords.dropLast ++ b.coords)).headD ⟨0, 0⟩) <
          max (max a.tolerance b.tolerance) 0 ^ 2 →
        gpAddGP a b =
          some ⟨(dedupCoords (max (max a.tolerance b.tolerance) 0 ^ 2)
              (a.coords.dropLast ++ b.coords)).dropLast,
            max (max a.tolerance b.tolerance) 0⟩) ∧
      (∀ (a b : GraphicalPath) (la hd : GC),
        a.coords.getLast? = some la → b.coords.head? = some hd →
        ¬(distSq la hd < max (a.tolerance ^ 2) (b.tolerance ^ 2)) →
        distSq ((dedupCoords (max a.tolerance b.tolerance ^ 2)
            (a.coords ++ b.coords)).getLastD ⟨0, 0⟩)
            ((dedupCoords (max a.tolerance b.tolerance ^ 2)
            (a.coords ++ b.coords)).headD ⟨0, 0⟩) <
          max a.tolerance b.tolerance ^ 2 →
        gpAddGP a b =
          some ⟨(dedupCoords (max a.tolerance b.tolerance ^ 2)
              (a.coords ++ b.coords)).dropLast,
            max a.tolerance b.tolerance⟩) ∧
      (∀ (gp : GraphicalPath) (o : OLS) (la : GC),
        gp.coords.getLast? = some la →
        distSq la o.start < gp.tolerance ^ 2 →
        ¬(gp.tolerance ^ 2 <
          distSq ((gp.coords ++ [o.stop]).getLastD ⟨0, 0⟩)
            ((gp.coords ++ [o.stop]).headD ⟨0, 0⟩)) →
        gpAddOLS gp o =
          some ⟨(gp.coords ++ [o.stop]).dropLast, gp.tolerance⟩) ∧
      (∀ (gp : GraphicalPath) (o : OLS) (la : GC),
        gp.coords.getLast? = some la →
        ¬(distSq la o.start < gp.tolerance ^ 2) →
        ¬(gp.tolerance ^ 2 <
          distSq ((gp.coords ++ [o.start, o.stop]).getLastD ⟨0, 0⟩)
            ((gp.coords ++ [o.start, o.stop]).headD ⟨0, 0⟩)) →
        gpAddOLS gp o =
          some ⟨(gp.coords ++ [o.start, o.stop]).dropLast, gp.tolerance⟩) := by
  have base : ∀ (coords : List GC) (tol : ℚ) (gp : GraphicalPath),
      gpInit coords tol true = some gp →
      List.Chain' (fun u v => gp.tolerance ^ 2 < distSq u v) gp.coords := by
    intro coords tol gp h
    rw [gpInit_checked_eq coords tol gp h]
    exact chain'_closeLoop _ _ (chain'_dedupCoords _ _)
  have hdrop : ∀ (coords : List GC) (tol : ℚ),
      coords ≠ [] →
      distSq ((dedupCoords (tol ^ 2) coords).getLastD ⟨0, 0⟩)
          ((dedupCoords (tol ^ 2) coords).headD ⟨0, 0⟩) < tol ^ 2 →
      gpInit coords tol true =
        some ⟨(dedupCoords (tol ^ 2) coords).dropLast, tol⟩ := by
    intro coords tol hne hclose
    unfold gpInit
    rw [if_neg hne]
    simp only [if_pos rfl, Option.some.injEq]
    unfold closeLoop
    rw [if_pos hclose]
  refine ⟨base, ?_, ?_, hdrop, ?_, ?_, ?_, ?_, ?_⟩
  · intro a c gp h
    exact base _ _ _ h
  · intro a b gp h
    unfold gpAddGP at h
    rcases hla : a.coords.getLast? with _ | la <;> rw [hla] at h
    · exact absurd h (by simp)
    · rcases hh : b.coords.head? with _ | hd <;> rw [hh] at h
      · exact absurd h (by simp)
      · dsimp only at h
        by_cases hm : distSq la hd < max (a.tolerance ^ 2) (b.tolerance ^ 2)
        · rw [if_pos hm] at h
          exact base _ _ _ h
        · rw [if_neg hm] at h
          exact base _ _ _ h
  · intro a c hclose
    exact hdrop (a.coords ++ [c]) a.tolerance (by simp) hclose
  · intro a b la hd hla hh hm hclose
    have hbne : b.coords ≠ [] := by
      intro he
      rw [he] at hh
      cases hh
    unfold gpAddGP
    rw [hla, hh]
    dsimp only
    rw [if_pos hm]
    exact hdrop _ _ (fun he => hbne (List.append_eq_nil.mp he).2) hclose
  · intro a b la hd hla hh hm hclose
    have hbne : b.coords ≠ [] := by
      intro he
      rw [he] at hh
      cases hh
    unfold gpAddGP
    rw [hla, hh]
    dsimp only
    rw [if_neg hm]
    exact hdrop _ _ (fun he => hbne (List.append_eq_nil.mp he).2) hclose
  · intro gp o la hla hnear hfar
    unfold gpAddOLS
    rw [hla]
    dsimp only
    rw [if_pos hnear]
    unfold gpInit
    rw [if_neg (by simp)]
    dsimp only
    rw [if_neg hfar]
  · intro gp o la hla hnear hfar
    unfold gpAddOLS
    rw [hla]
    dsimp only
    rw [if_neg hnear]
    unfold gpInit
    rw [if_neg (by simp)]
    dsimp only
    rw [if_neg hfar]

theorem graphicalPath_checked_invariants_witness :
    gpInit [⟨0, 0⟩, ⟨1, 0⟩, ⟨1, 1⟩] (1 / 100) true =
        some ⟨[⟨0, 0⟩, ⟨1, 0⟩, ⟨1, 1⟩], 1 / 100⟩ ∧
      List.Chain'
        (fun u v => (⟨[⟨0, 0⟩, ⟨1, 0⟩, ⟨1, 1⟩], 1 / 100⟩ : GraphicalPath).tolerance ^ 2
          < distSq u v)
        (⟨[⟨0, 0⟩, ⟨1, 0⟩, ⟨1, 1⟩], 1 / 100⟩ : GraphicalPath).coords := by
  have h : gpInit [⟨0, 0⟩, ⟨1, 0⟩, ⟨1, 1⟩] (1 / 100) true =
      some ⟨[⟨0, 0⟩, ⟨1, 0⟩, ⟨1, 1⟩], 1 / 100⟩ := by
    norm_num [gpInit, dedupCoords, dedupAux, closeLoop, distSq]
    intro h
    simp at h
  exact ⟨h, graphicalPath_checked_invariants.1 _ _ _ h⟩

/-! ## `svgmazes.py`: `WallFace`, `WallTracker` and the contour extraction
loop of `WallFollowerSVGData.__init__` -/

/-- A `WallFace`: a cell position plus a direction (the `maze` field of the
Python dataclass is passed separately here). -/
abbrev Face := Pos × Dir

/-- Membership in `WallFace.all_walls` / `WallTracker.track`: positions range
over `range(-1, rows + 1) × range(-1, cols + 1)`. -/
def Maze.inTrackRange (m : Maze) (p : Pos) : Prop :=
  -1 ≤ p.row ∧ p.row ≤ m.rows ∧ -1 ≤ p.column ∧ p.column ≤ m.cols

instance (m : Maze) (p : Pos) : Decidable (m.inTrackRange p) := by
  unfold Maze.inTrackRange; infer_instance

/-- `position in wall_dict and wall_dict[position][direction] is not None`:
the face is a present wall face (`WallFace.from_cell` stores a face exactly
for the directions on which `cell_walls` reports a wall). -/
def Maze.facePresent (m : Maze) (f : Face) : Prop :=
  m.inTrackRange f.1 ∧ m.cellWalls f.1 f.2 = true

instance (m : Maze) (f : Face) : Decidable (m.facePresent f) := by
  unfold Maze.facePresent; infer_instance

/-- The four candidate faces of `WallTracker.next_wall`, in the code's fixed
priority order (b), (c), (d), (e). -/
def candidates (w : Face) : List Face :=
  [(w.1, w.2.nextDir),
    (w.1.neighbor w.2.nextDir, w.2),
    ((w.1.neighbor w.2.nextDir).neighbor w.2, w.2.nextDir.opposite),
    (w.1.neighbor w.2, w.2.opposite)]

/-- `WallTracker.next_wall`: the first candidate that is a present wall face
(the `track` consumption marks are not consulted); `none` models the
`ValueError` raised when no candidate qualifies. -/
def nextWallFun (m : Maze) (w : Face) : Option Face :=
  (candidates w).find? (fun f => decide (m.facePresent f))

/-- The opposite face of the same wall segment (candidate (e)). -/
def faceFlip (w : Face) : Face := (w.1.neighbor w.2, w.2.opposite)

theorem faceFlip_involutive (w : Face) : faceFlip (faceFlip w) = w := by
  obtain ⟨p, d⟩ := w
  unfold faceFlip
  simp only
  rw [neighbor_opposite]
  cases d <;> rfl

/-- The lattice corner around which `next_wall` pivots from face `w`:
all four candidates of `w` are faces incident to this corner. -/
def pivot (w : Face) : Pos :=
  match w.2 with
  | .north => ⟨w.1.row, w.1.column⟩
  | .east => ⟨w.1.row, w.1.column + 1⟩
  | .south => ⟨w.1.row + 1, w.1.column + 1⟩
  | .west => ⟨w.1.row + 1, w.1.column⟩

/-- The four outgoing faces at a lattice corner, in rotational order. -/
def sigmaFace (q : Pos) (i : Fin 4) : Face :=
  match i with
  | 0 => (⟨q.row, q.column⟩, .west)
  | 1 => (⟨q.row, q.column - 1⟩, .north)
  | 2 => (⟨q.row - 1, q.column - 1⟩, .east)
  | 3 => (⟨q.row - 1, q.column⟩, .south)

/-- The rotational slot of a face among the outgoing faces at its pivot. -/
def slotOf : Dir → Fin 4
  | .east => 0
  | .south => 1
  | .west => 2
  | .north => 3

theorem faceFlip_eq_sigma (w : Face) :
    faceFlip w = sigmaFace (pivot w) (slotOf w.2) := by
  obtain ⟨⟨r, c⟩, d⟩ := w
  cases d <;> simp [faceFlip, pivot, slotOf, sigmaFace, Pos.neighbor, Dir.opposite]

theorem candidates_eq_sigma (w : Face) :
    candidates w = [sigmaFace (pivot w) (slotOf w.2 + 1),
      sigmaFace (pivot w) (slotOf w.2 + 2),
      sigmaFace (pivot w) (slotOf w.2 + 3),
      sigmaFace (pivot w) (slotOf w.2)] := by
  obtain ⟨⟨r, c⟩, d⟩ := w
  cases d <;>
    simp [candidates, pivot, slotOf, sigmaFace, Pos.neighbor, Dir.nextDir,
      Dir.opposite] <;>
    constructor <;> rfl

theorem sigmaFace_inj {q q' : Pos} {i i' : Fin 4}
    (h : sigmaFace q i = sigmaFace q' i') : q = q' ∧ i = i' := by
  obtain ⟨r, c⟩ := q
  obtain ⟨r', c'⟩ := q'
  fin_cases i <;> fin_cases i' <;>
    simp [sigmaFace, Pos.mk.injEq, Prod.ext_iff] at h ⊢ <;> omega

theorem slotOf_inj {d d' : Dir} (h : slotOf d = slotOf d') : d = d' := by
  cases d <;> cases d' <;> first | rfl | exact absurd h (by decide)

/-- The rotational successor on the four slots at one corner: the first
present slot strictly after `i`, wrapping around, with `i` itself last. -/
def nextIdx (pres : Fin 4 → Bool) (i : Fin 4) : Option (Fin 4) :=
  if pres (i + 1) then some (i + 1)
  else if pres (i + 2) then some (i + 2)
  else if pres (i + 3) then some (i + 3)
  else if pres i then some i
  else none

theorem nextIdx_inj : ∀ (pres : Fin 4 → Bool) (i j : Fin 4),
    pres i = true → pres j = true → nextIdx pres i = nextIdx pres j → i = j := by
  decide

theorem nextIdx_isSome : ∀ (pres : Fin 4 → Bool) (i : Fin 4),
    pres i = true → (nextIdx pres i).isSome = true := by
  decide

theorem nextIdx_pres : ∀ (pres : Fin 4 → Bool) (i k : Fin 4),
    nextIdx pres i = some k → pres k = true := by
  decide

/-- The presence pattern of the four outgoing faces at a corner. -/
def presAt (m : Maze) (q : Pos) : Fin 4 → Bool :=
  fun i => decide (m.facePresent (sigmaFace q i))

/-- `next_wall` computed through the corner decomposition. -/
theorem nextWallFun_eq_sigma (m : Maze) (w : Face) :
    nextWallFun m w =
      (nextIdx (presAt m (pivot w)) (slotOf w.2)).map (sigmaFace (pivot w)) := by
  rw [nextWallFun, candidates_eq_sigma]
  unfold nextIdx presAt
  cases h1 : decide (m.facePresent (sigmaFace (pivot w) (slotOf w.2 + 1))) <;>
    cases h2 : decide (m.facePresent (sigmaFace (pivot w) (slotOf w.2 + 2))) <;>
    cases h3 : decide (m.facePresent (sigmaFace (pivot w) (slotOf w.2 + 3))) <;>
    cases h4 : decide (m.facePresent (sigmaFace (pivot w) (slotOf w.2))) <;>
    simp [List.find?, h1, h2, h3, h4]

/-- A face on which `cell_walls` reports a wall has both its own cell and the
neighbouring cell inside the tracker's position range. -/
theorem cellWalls_true_track_range (m : Maze) (p : Pos) (d : Dir)
    (h : m.cellWalls p d = true) :
    m.inTrackRange p ∧ m.inTrackRange (p.neighbor d) := by
  have hv : m.validWallCoord (p.convertWallCoordinates d) := by
    by_contra hnv
    rw [cellWalls_invalid_side_false m p d hnv] at h
    exact absurd h (by simp)
  obtain ⟨r, c⟩ := p
  cases d <;>
    · obtain ⟨h1, h2, h3, h4⟩ := hv
      simp only [Pos.convertWallCoordinates] at h1 h2 h3 h4
      constructor <;>
        · refine ⟨?_, ?_, ?_, ?_⟩ <;>
          · simp only [Pos.neighbor]
            rcases h2 with h2 | ⟨h2, h2o⟩ <;> rcases h4 with h4 | ⟨h4, h4o⟩ <;>
              first
                | omega
                | (exact absurd h2o (by decide))
                | (exact absurd h4o (by decide))

/-- Presence of a face already implies the tracker-range side condition. -/
theorem facePresent_iff (m : Maze) (w : Face) :
    m.facePresent w ↔ m.cellWalls w.1 w.2 = true := by
  constructor
  · exact fun h => h.2
  · intro h
    exact ⟨(cellWalls_true_track_range m w.1 w.2 h).1, h⟩

/-- The two faces of one wall segment are present together. -/
theorem facePresent_flip (m : Maze) (w : Face) :
    m.facePresent (faceFlip w) ↔ m.facePresent w := by
  rw [facePresent_iff, facePresent_iff]
  show m.cellWalls (w.1.neighbor w.2) w.2.opposite = true ↔ _
  rw [cellWalls_shared]

theorem pres_slot_self (m : Maze) (w : Face) (h : m.facePresent w) :
    presAt m (pivot w) (slotOf w.2) = true := by
  unfold presAt
  rw [← faceFlip_eq_sigma, decide_eq_true_eq]
  exact (facePresent_flip m w).mpr h

/-- For a present face the rotation rule always finds a next face (its own
segment's opposite face qualifies last), and the result is present. -/
theorem nextWall_some_present (m : Maze) (w : Face) (h : m.facePresent w) :
    ∃ w', nextWallFun m w = some w' ∧ m.facePresent w' := by
  rw [nextWallFun_eq_sigma]
  have hs := nextIdx_isSome (presAt m (pivot w)) (slotOf w.2) (pres_slot_self m w h)
  rcases hk : nextIdx (presAt m (pivot w)) (slotOf w.2) with _ | k
  · rw [hk] at hs; exact absurd hs (by simp)
  · refine ⟨sigmaFace (pivot w) k, by simp, ?_⟩
    have := nextIdx_pres (presAt m (pivot w)) (slotOf w.2) k hk
    unfold presAt at this
    exact of_decide_eq_true this

/-- Each face is outgoing at exactly one corner: `sigmaFace` determines its
arguments. -/
theorem nextWall_inj (m : Maze) (w₁ w₂ x : Face)
    (h1 : m.facePresent w₁) (h2 : m.facePresent w₂)
    (e1 : nextWallFun m w₁ = some x) (e2 : nextWallFun m w₂ = some x) :
    w₁ = w₂ := by
  rw [nextWallFun_eq_sigma] at e1 e2
  rcases hk1 : nextIdx (presAt m (pivot w₁)) (slotOf w₁.2) with _ | k1 <;>
    rw [hk1] at e1
  · exact absurd e1 (by simp)
  rcases hk2 : nextIdx (presAt m (pivot w₂)) (slotOf w₂.2) with _ | k2 <;>
    rw [hk2] at e2
  · exact absurd e2 (by simp)
  simp only [Option.map_some', Option.some.injEq] at e1 e2
  have hqk : pivot w₁ = pivot w₂ ∧ k1 = k2 := sigmaFace_inj (e1.trans e2.symm)
  obtain ⟨hq, hk⟩ := hqk
  rw [hq, hk] at hk1
  have hslot : slotOf w₁.2 = slotOf w₂.2 :=
    nextIdx_inj (presAt m (pivot w₂)) _ _
      (by rw [← hq]; exact pres_slot_self m w₁ h1)
      (pres_slot_self m w₂ h2) (hk1.trans hk2.symm)
  have hd : w₁.2 = w₂.2 := slotOf_inj hslot
  have hflip : faceFlip w₁ = faceFlip w₂ := by
    rw [faceFlip_eq_sigma, faceFlip_eq_sigma, hq, hd]
  have := congrArg faceFlip hflip
  rwa [faceFlip_involutive, faceFlip_involutive] at this

/-- The integers from `lo` to `hi` inclusive (`range(lo, hi + 1)`). -/
def intRange (lo hi : Int) : List Int :=
  (List.range (hi + 1 - lo).toNat).map (fun k : Nat => lo + (k : Int))

theorem mem_intRange {lo hi x : Int} : x ∈ intRange lo hi ↔ lo ≤ x ∧ x ≤ hi := by
  unfold intRange
  simp only [List.mem_map, List.mem_range]
  constructor
  · rintro ⟨k, hk, rfl⟩
    omega
  · intro ⟨h1, h2⟩
    exact ⟨(x - lo).toNat, by omega, by omega⟩

/-- The tracker's cell enumeration, in the dict insertion order of
`WallFace.all_walls`: rows `-1..rows` outer, columns `-1..cols` inner. -/
def trackCells (m : Maze) : List Pos :=
  (intRange (-1) m.rows).bind (fun r => (intRange (-1) m.cols).map (fun c => ⟨r, c⟩))

/-- All faces in tracker scan order: cells in dict order, directions in
`DIRECTIONS` order — the order in which `_get_cell_with_wall` and
`_basic_get_wall` scan. -/
def allFacesList (m : Maze) : List Face :=
  (trackCells m).bind (fun p => DIRECTIONS.map (fun d => (p, d)))

theorem mem_allFacesList {m : Maze} {f : Face} :
    f ∈ allFacesList m ↔ m.inTrackRange f.1 := by
  unfold allFacesList trackCells
  simp only [List.mem_bind, List.mem_map]
  constructor
  · rintro ⟨p, hp, d, _, rfl⟩
    obtain ⟨r, hr, c, hc, rfl⟩ := hp
    rw [mem_intRange] at hr hc
    exact ⟨hr.1, hr.2, hc.1, hc.2⟩
  · intro ⟨h1, h2, h3, h4⟩
    refine ⟨f.1, ⟨f.1.row, mem_intRange.mpr ⟨h1, h2⟩,
      f.1.column, mem_intRange.mpr ⟨h3, h4⟩, rfl⟩, f.2, by cases f.2 <;> decide, rfl⟩

theorem facePresent_mem_allFaces {m : Maze} {f : Face} (h : m.facePresent f) :
    f ∈ allFacesList m :=
  mem_allFacesList.mpr h.1

/-- `WallTracker.get_wall`: scan the track for the first cell with a wall
still toggled on, then the first direction in `DIRECTIONS` order; `none`
when no walls remain. -/
def getWallModel (m : Maze) (marked : List Face) : Option Face :=
  (allFacesList m).find? (fun f => decide (m.facePresent f) && !(marked.contains f))

/-- The inner tracing loop of `WallFollowerSVGData.__init__`:
`while (w := tracker.next_wall(w)) not in current_component: append; mark`.
`none` models both a `ValueError` from `next_wall` and fuel exhaustion. -/
def traceAux (m : Maze) : Nat → Face → List Face → Option (List Face)
  | 0, _, _ => none
  | fuel + 1, w, comp =>
      match nextWallFun m w with
      | none => none
      | some w' => if w' ∈ comp then some comp else traceAux m fuel w' (comp ++ [w'])

/-- The outer extraction loop of `WallFollowerSVGData.__init__`: repeatedly
take a remaining face from the tracker and trace one component.  (The code
marks each face off the track as soon as it is appended; the track is only
read between components, so accumulating the marks per component is
observationally the same.) -/
def extractAux (m : Maze) : Nat → List Face → List (List Face) →
    Option (List (List Face))
  | 0, marked, acc =>
      match getWallModel m marked with
      | none => some acc
      | some _ => none
  | fuel + 1, marked, acc =>
      match getWallModel m marked with
      | none => some acc
      | some w =>
          match traceAux m ((allFacesList m).length + 1) w [w] with
          | none => none
          | some comp => extractAux m fuel (marked ++ comp) (acc ++ [comp])

/-- The full component extraction of `WallFollowerSVGData.__init__`. -/
def wallComponents (m : Maze) : Option (List (List Face)) :=
  extractAux m ((allFacesList m).length + 1) [] []

/-- The totalized orbit of a face under repeated `next_wall`. -/
def orbitSeq (m : Maze) (w : Face) : Nat → Face
  | 0 => w
  | n + 1 => (nextWallFun m (orbitSeq m w n)).getD w

theorem orbitSeq_present (m : Maze) (w : Face) (h : m.facePresent w) :
    ∀ n, m.facePresent (orbitSeq m w n) ∧
      nextWallFun m (orbitSeq m w n) = some (orbitSeq m w (n + 1)) := by
  intro n
  induction n with
  | zero =>
      obtain ⟨w', hw', hp⟩ := nextWall_some_present m w h
      exact ⟨h, by simp [orbitSeq, hw']⟩
  | succ n ih =>
      obtain ⟨w', hw', hp⟩ := nextWall_some_present m _
        (by
          have := ih.2
          have hpres : m.facePresent (orbitSeq m w (n + 1)) := by
            obtain ⟨x, hx, hxp⟩ := nextWall_some_present m _ ih.1
            rw [hx] at this
            rwa [← Option.some.inj this]
          exact hpres)
      refine ⟨?_, ?_⟩
      · obtain ⟨x, hx, hxp⟩ := nextWall_some_present m _ ih.1
        have := ih.2
        rw [hx] at this
        rwa [← Option.some.inj this]
      · show nextWallFun m (orbitSeq m w (n + 1)) =
          some ((nextWallFun m (orbitSeq m w (n + 1))).getD w)
        rw [hw']
        rfl

/-- The present faces of the maze, as a finite set. -/
def presentFaces (m : Maze) : Finset Face :=
  ((allFacesList m).filter (fun f => decide (m.facePresent f))).toFinset

theorem mem_presentFaces {m : Maze} {f : Face} :
    f ∈ presentFaces m ↔ m.facePresent f := by
  unfold presentFaces
  rw [List.mem_toFinset, List.mem_filter]
  constructor
  · intro ⟨_, h⟩
    exact of_decide_eq_true h
  · intro h
    exact ⟨facePresent_mem_allFaces h, decide_eq_true h⟩

theorem presentFaces_card_le (m : Maze) :
    (presentFaces m).card ≤ (allFacesList m).length :=
  le_trans (List.toFinset_card_le _) (List.length_filter_le _ _)

/-- Every orbit under `next_wall` returns to its starting face, with all
faces before the first return pairwise distinct: `next_wall` is injective on
present faces, so the first repetition in the orbit is the start itself. -/
theorem orbit_cycle_exists (m : Maze) (w : Face) (h : m.facePresent w) :
    ∃ n₀, 0 < n₀ ∧ n₀ ≤ (allFacesList m).length ∧ orbitSeq m w n₀ = w ∧
      ∀ a b, a < b → b < n₀ → orbitSeq m w a ≠ orbitSeq m w b := by
  classical
  set N := (allFacesList m).length with hN
  have hmaps : ∀ i ∈ Finset.range (N + 1), orbitSeq m w i ∈ presentFaces m := by
    intro i _
    exact mem_presentFaces.mpr (orbitSeq_present m w h i).1
  have hcard : (presentFaces m).card < (Finset.range (N + 1)).card := by
    rw [Finset.card_range]
    exact lt_of_le_of_lt (presentFaces_card_le m) (Nat.lt_succ_self N)
  obtain ⟨i, hi, j, hj, hij, heq⟩ :=
    Finset.exists_ne_map_eq_of_card_lt_of_maps_to hcard hmaps
  rw [Finset.mem_range] at hi hj
  have hS : ∃ n, 0 < n ∧ n ≤ N ∧ ∃ a, a < n ∧ orbitSeq m w a = orbitSeq m w n := by
    rcases Nat.lt_or_ge i j with hlt | hge
    · exact ⟨j, by omega, by omega, i, hlt, heq⟩
    · have hlt : j < i := by omega
      exact ⟨i, by omega, by omega, j, hlt, heq.symm⟩
  set n₀ := Nat.find hS with hn₀def
  obtain ⟨hpos, hle, a, ha, haeq⟩ := Nat.find_spec hS
  have hmin := fun k (hk : k < n₀) => Nat.find_min hS hk
  have ha0 : a = 0 := by
    by_contra ha0
    have ha1 : 1 ≤ a := by omega
    have s1 := (orbitSeq_present m w h (a - 1)).2
    have s2 := (orbitSeq_present m w h (n₀ - 1)).2
    rw [show a - 1 + 1 = a by omega] at s1
    rw [show n₀ - 1 + 1 = n₀ by omega] at s2
    rw [← haeq] at s2
    have hinj := nextWall_inj m _ _ _ (orbitSeq_present m w h (a - 1)).1
      (orbitSeq_present m w h (n₀ - 1)).1 s1 s2
    have : 0 < n₀ - 1 ∧ n₀ - 1 ≤ N ∧
        ∃ b, b < n₀ - 1 ∧ orbitSeq m w b = orbitSeq m w (n₀ - 1) := by
      refine ⟨by omega, by omega, a - 1, by omega, hinj⟩
    exact hmin (n₀ - 1) (by omega) this
  refine ⟨n₀, hpos, hle, by rw [← haeq, ha0]; rfl, ?_⟩
  intro a' b hab hb hne
  have : 0 < b ∧ b ≤ N ∧ ∃ c, c < b ∧ orbitSeq m w c = orbitSeq m w b := by
    exact ⟨by omega, by omega, a', hab, hne⟩
  exact hmin b hb this

theorem traceAux_orbit (m : Maze) (w : Face) (h : m.facePresent w)
    (n₀ : Nat) (hret : orbitSeq m w n₀ = w)
    (hinj : ∀ a b, a < b → b < n₀ → orbitSeq m w a ≠ orbitSeq m w b) :
    ∀ fuel k, k < n₀ → n₀ - k ≤ fuel →
      traceAux m fuel (orbitSeq m w k) ((List.range (k + 1)).map (orbitSeq m w)) =
        some ((List.range n₀).map (orbitSeq m w)) := by
  intro fuel
  induction fuel with
  | zero => intro k hk hf; omega
  | succ fuel ih =>
      intro k hk hf
      have hstep := (orbitSeq_present m w h k).2
      simp only [traceAux, hstep]
      by_cases hend : k + 1 = n₀
      · rw [if_pos ?memcase]
        case memcase =>
          rw [List.mem_map]
          refine ⟨0, by simp, ?_⟩
          show orbitSeq m w 0 = orbitSeq m w (k + 1)
          rw [hend, hret]
          rfl
        rw [hend]
      · have hlt : k + 1 < n₀ := by omega
        rw [if_neg ?nomem]
        case nomem =>
          rw [List.mem_map]
          rintro ⟨a, hamem, haeq⟩
          rw [List.mem_range] at hamem
          exact hinj a (k + 1) (by omega) hlt haeq
        have hlist : (List.range (k + 1)).map (orbitSeq m w) ++ [orbitSeq m w (k + 1)]
            = (List.range (k + 1 + 1)).map (orbitSeq m w) := by
          conv_rhs => rw [List.range_succ]
          rw [List.map_append]
          rfl
        rw [hlist]
        exact ih (k + 1) hlt (by omega)

/-- The component traced from a present face `w`: it is the orbit of `w`
up to the first return, its faces are pairwise distinct and present, the
rule maps each face to the next and the last face back to `w`, and the set
of its faces is closed under the rule. -/
theorem trace_cycle (m : Maze) (w : Face) (h : m.facePresent w) :
    ∃ comp, (∀ fuel, (allFacesList m).length + 1 ≤ fuel →
        traceAux m fuel w [w] = some comp) ∧
      comp.head? = some w ∧ comp.Nodup ∧ comp ≠ [] ∧
      (∀ f ∈ comp, m.facePresent f) ∧
      List.Chain' (fun a b => nextWallFun m a = some b) comp ∧
      (∃ la, comp.getLast? = some la ∧ nextWallFun m la = some w) ∧
      (∀ f ∈ comp, ∀ f', nextWallFun m f = some f' → f' ∈ comp) := by
  obtain ⟨n₀, hpos, hle, hret, hinj⟩ := orbit_cycle_exists m w h
  obtain ⟨k, rfl⟩ : ∃ k, n₀ = k + 1 := ⟨n₀ - 1, by omega⟩
  refine ⟨(List.range (k + 1)).map (orbitSeq m w), ?_, ?_, ?_, ?_, ?_, ?_, ?_, ?_⟩
  · intro fuel hfuel
    have := traceAux_orbit m w h (k + 1) hret hinj fuel 0 (by omega) (by omega)
    simpa [orbitSeq] using this
  · rw [List.range_succ_eq_map]
    rfl
  · refine List.Nodup.map_on ?_ (List.nodup_range _)
    intro a hamem b hbmem hab
    rw [List.mem_range] at hamem hbmem
    by_contra hne
    rcases Nat.lt_or_ge a b with hlt | hge
    · exact hinj a b hlt hbmem hab
    · exact hinj b a (by omega) hamem hab.symm
  · simp
  · intro f hf
    rw [List.mem_map] at hf
    obtain ⟨a, _, rfl⟩ := hf
    exact (orbitSeq_present m w h a).1
  · rw [List.chain'_map]
    rw [List.chain'_range_succ]
    intro i hi
    exact (orbitSeq_present m w h i).2
  · refine ⟨orbitSeq m w k, ?_, ?_⟩
    · rw [List.range_succ, List.map_append]
      simp
    · have hthis := (orbitSeq_present m w h k).2
      rw [hret] at hthis
      exact hthis
  · intro f hf f' hf'
    rw [List.mem_map] at hf
    obtain ⟨a, hamem, rfl⟩ := hf
    rw [List.mem_range] at hamem
    have hstep := (orbitSeq_present m w h a).2
    rw [hstep] at hf'
    have hf'eq := Option.some.inj hf'
    rw [List.mem_map]
    by_cases hend : a + 1 = k + 1
    · refine ⟨0, by simp, ?_⟩
      show orbitSeq m w 0 = f'
      rw [← hf'eq, hend, hret]
      rfl
    · exact ⟨a + 1, List.mem_range.mpr (by omega), hf'eq⟩

/-- A finite set of present faces that is closed under the rule is also
closed under rule preimages: the rule restricted to such a set is an
injective self-map of a finite set, hence surjective onto it. -/
theorem closed_preimage (m : Maze) (M : List Face)
    (hpres : ∀ f ∈ M, m.facePresent f)
    (hclosed : ∀ f ∈ M, ∀ f', nextWallFun m f = some f' → f' ∈ M)
    (x : Face) (hx : m.facePresent x) (y : Face) (hy : y ∈ M)
    (hxy : nextWallFun m x = some y) : x ∈ M := by
  classical
  set T : Finset Face := M.toFinset with hT
  have himg : ∀ a ∈ T, (nextWallFun m a).getD x ∈ T := by
    intro a ha
    rw [hT, List.mem_toFinset] at ha ⊢
    obtain ⟨a', ha', hap⟩ := nextWall_some_present m a (hpres a ha)
    rw [ha']
    exact hclosed a ha a' ha'
  have hsurj := Finset.surj_on_of_inj_on_of_card_le
    (s := T) (t := T) (fun a _ => (nextWallFun m a).getD x) himg
    ?hinj (le_refl _)
  case hinj =>
    intro a₁ a₂ ha₁ ha₂ heq
    rw [hT, List.mem_toFinset] at ha₁ ha₂
    obtain ⟨b₁, hb₁, hbp₁⟩ := nextWall_some_present m a₁ (hpres a₁ ha₁)
    obtain ⟨b₂, hb₂, hbp₂⟩ := nextWall_some_present m a₂ (hpres a₂ ha₂)
    dsimp only at heq
    rw [hb₁, hb₂] at heq
    simp only [Option.getD_some] at heq
    subst heq
    exact nextWall_inj m a₁ a₂ b₁ (hpres a₁ ha₁) (hpres a₂ ha₂) hb₁ hb₂
  obtain ⟨a, ha, hay⟩ := hsurj y (by rw [hT, List.mem_toFinset]; exact hy)
  rw [hT, List.mem_toFinset] at ha
  obtain ⟨a', ha', hap⟩ := nextWall_some_present m a (hpres a ha)
  dsimp only at hay
  rw [ha'] at hay
  simp only [Option.getD_some] at hay
  have : a = x := by
    refine nextWall_inj m a x y (hpres a ha) hx ?_ hxy
    rw [ha', hay]
  rwa [← this]

theorem getWallModel_some {m : Maze} {marked : List Face} {w : Face}
    (h : getWallModel m marked = some w) :
    m.facePresent w ∧ w ∉ marked := by
  have hp := List.find?_some h
  rw [Bool.and_eq_true] at hp
  refine ⟨of_decide_eq_true hp.1, ?_⟩
  simpa using hp.2

theorem getWallModel_none {m : Maze} {marked : List Face}
    (h : getWallModel m marked = none) :
    ∀ f, m.facePresent f → f ∈ marked := by
  intro f hf
  have := List.find?_eq_none.mp h f (facePresent_mem_allFaces hf)
  rw [Bool.and_eq_true, not_and] at this
  have h2 := this (decide_eq_true hf)
  simpa using h2

/-- The outer extraction loop, fully specified: with enough fuel it returns
a list of components whose concatenation contains every present face
exactly once. -/
theorem extractAux_spec (m : Maze) :
    ∀ (fuel : Nat) (marked : List Face) (acc : List (List Face)),
      (∀ f ∈ marked, m.facePresent f) →
      (∀ f ∈ marked, ∀ f', nextWallFun m f = some f' → f' ∈ marked) →
      marked.Nodup →
      marked = acc.join →
      (presentFaces m).card - marked.length < fuel →
      ∃ comps, extractAux m fuel marked acc = some comps ∧
        comps.join.Nodup ∧ (∀ f, f ∈ comps.join ↔ m.facePresent f) := by
  intro fuel
  induction fuel with
  | zero => intro marked acc _ _ _ _ hf; omega
  | succ fuel ih =>
      intro marked acc hpres hclosed hnodup hjoin hfuel
      rcases hget : getWallModel m marked with _ | w
      · refine ⟨acc, ?_, ?_, ?_⟩
        · simp [extractAux, hget]
        · rw [← hjoin]; exact hnodup
        · intro f
          rw [← hjoin]
          exact ⟨fun hm => hpres f hm, getWallModel_none hget f⟩
      · obtain ⟨hwpres, hwnew⟩ := getWallModel_some hget
        obtain ⟨comp, htrace, hhead, hcompnodup, hcompne, hcomppres, _hchain,
          _hlast, hcompclosed⟩ := trace_cycle m w hwpres
        -- every face of the traced cycle is outside `marked`
        have hdisj : ∀ f ∈ comp, f ∉ marked := by
          have horbit : ∀ a : Nat, a < comp.length →
              comp.getD a w ∉ marked := by
            intro a
            induction a with
            | zero =>
                intro _
                have : comp.getD 0 w = w := by
                  cases comp with
                  | nil => exact absurd rfl hcompne
                  | cons c cs =>
                      have : c = w := by
                        have := hhead
                        simp only [List.head?_cons, Option.some.injEq] at this
                        exact this
                      simp [this]
                rw [this]
                exact hwnew
            | succ a iha =>
                intro ha
                intro hmem
                have haa : a < comp.length := by omega
                have hfa : comp.getD a w ∈ comp := by
                  rw [List.getD_eq_getElem?_getD, List.getElem?_eq_getElem haa]
                  simpa using List.getElem_mem haa
                have hfaa : comp.getD (a + 1) w ∈ comp := by
                  rw [List.getD_eq_getElem?_getD, List.getElem?_eq_getElem ha]
                  simpa using List.getElem_mem ha
                -- the chain property gives the rule step between them
                have hstep : nextWallFun m (comp.getD a w) = some (comp.getD (a + 1) w) := by
                  have := List.chain'_iff_get.mp _hchain a (by omega)
                  simpa [List.getD_eq_getElem?_getD, List.getElem?_eq_getElem haa,
                    List.getElem?_eq_getElem ha] using this
                exact iha haa (closed_preimage m marked hpres hclosed
                  (comp.getD a w) (hcomppres _ hfa) (comp.getD (a + 1) w) hmem hstep)
          intro f hf hmem
          obtain ⟨a, ha, rfl⟩ := List.getElem_of_mem hf
          have := horbit a ha
          rw [List.getD_eq_getElem?_getD, List.getElem?_eq_getElem ha] at this
          exact this hmem
        have hlen : 1 ≤ comp.length := by
          cases comp with
          | nil => exact absurd rfl hcompne
          | cons c cs => simp
        have hmlt : marked.length < (presentFaces m).card := by
          have hwm : (w :: marked).Nodup := by
            rw [List.nodup_cons]
            exact ⟨hwnew, hnodup⟩
          have hsub : (w :: marked).toFinset ⊆ presentFaces m := by
            intro f hf
            rw [List.mem_toFinset] at hf
            rcases List.mem_cons.mp hf with rfl | hf
            · exact mem_presentFaces.mpr hwpres
            · exact mem_presentFaces.mpr (hpres f hf)
          have := Finset.card_le_card hsub
          rw [List.toFinset_card_of_nodup hwm] at this
          simp only [List.length_cons] at this
          omega
        have hrec := ih (marked ++ comp) (acc ++ [comp])
          (by
            intro f hf
            rcases List.mem_append.mp hf with hf | hf
            exacts [hpres f hf, hcomppres f hf])
          (by
            intro f hf f' hf'
            rcases List.mem_append.mp hf with hf | hf
            · exact List.mem_append.mpr (Or.inl (hclosed f hf f' hf'))
            · exact List.mem_append.mpr (Or.inr (hcompclosed f hf f' hf')))
          (List.Nodup.append hnodup hcompnodup (fun a ham hac => hdisj a hac ham))
          (by rw [hjoin]; simp)
          (by
            rw [List.length_append]
            omega)
        obtain ⟨comps, hrun, hjn, hcov⟩ := hrec
        refine ⟨comps, ?_, hjn, hcov⟩
        show extractAux m (fuel + 1) marked acc = some comps
        have htr := htrace ((allFacesList m).length + 1) (le_refl _)
        simp only [extractAux, hget, htr]
        exact hrun

/-- C2: the contour components extracted by `WallFollowerSVGData.__init__`
cover every present wall face of the maze exactly once: the extraction
terminates, no present face is omitted from all components, and no face
occurs in two components or twice within one component. -/
theorem contour_components_partition (m : Maze) :
    ∃ comps, wallComponents m = some comps ∧ comps.join.Nodup ∧
      ∀ f : Face, f ∈ comps.join ↔ m.facePresent f := by
  refine extractAux_spec m ((allFacesList m).length + 1) [] []
    (by simp) (by simp) List.nodup_nil (by simp) ?_
  have := presentFaces_card_le m
  omega

/-- C3 (amended): starting from a present wall face `w`, the inner tracing
loop applies the rotation rule repeatedly and stops exactly when the rule
returns the starting face `w` again: the collected faces are the successive
rule images of `w`, pairwise distinct (the loop never stops on any face
other than the start), and the stop is triggered by the last face's rule
image being `w` itself.  The rule returns the first candidate, in the fixed
priority order, that is a present wall face — consumption marks are not
consulted — and fails fatally only when no candidate is present. -/
theorem contour_trace_stops_at_start (m : Maze) (w : Face) (h : m.facePresent w)
    (fuel : Nat) (hfuel : (allFacesList m).length + 1 ≤ fuel) :
    ∃ comp, traceAux m fuel w [w] = some comp ∧
      comp.head? = some w ∧ comp.Nodup ∧
      List.Chain' (fun a b => nextWallFun m a = some b) comp ∧
      ∃ la, comp.getLast? = some la ∧ nextWallFun m la = some w := by
  obtain ⟨comp, htrace, hh, hnd, _hne, _hp, hchain, hlast, _hcl⟩ := trace_cycle m w h
  exact ⟨comp, htrace fuel hfuel, hh, hnd, hchain, hlast⟩

theorem contour_trace_stops_at_start_witness :
    (mazeInit 1 1 []).facePresent (⟨⟨-1, 0⟩, .south⟩ : Face) ∧
      (allFacesList (mazeInit 1 1 [])).length + 1 ≤ 37 ∧
      ∃ comp, traceAux (mazeInit 1 1 []) 37 ⟨⟨-1, 0⟩, .south⟩ [⟨⟨-1, 0⟩, .south⟩]
          = some comp ∧
        comp.head? = some ⟨⟨-1, 0⟩, .south⟩ ∧ comp.Nodup ∧
        List.Chain' (fun a b => nextWallFun (mazeInit 1 1 []) a = some b) comp ∧
        ∃ la, comp.getLast? = some la ∧
          nextWallFun (mazeInit 1 1 []) la = some ⟨⟨-1, 0⟩, .south⟩ :=
  ⟨by decide, by decide,
    contour_trace_stops_at_start (mazeInit 1 1 []) ⟨⟨-1, 0⟩, .south⟩ (by decide)
      37 (by decide)⟩

/-- Modelled from the claim's words (C3): a variant of the rotation rule
that "returns the first candidate, in a fixed priority order, that is a
present, *not-yet-consumed* wall face".  The code's actual rule
(`nextWallFun`) does not consult the consumption marks. -/
def nextWallSpec (m : Maze) (consumed : List Face) (w : Face) : Option Face :=
  (candidates w).find?
    (fun f => decide (m.facePresent f) && !(consumed.contains f))

/-- C3, counterexample: in a 1×1 maze the first extracted component is the
outer boundary `[w0, w1, w2, w3]`; the loop-terminating rule application at
`w3` returns `w0`, which is already consumed at that point, whereas the
claim's present-and-not-yet-consumed rule would return the still unconsumed
interior face `((0,0), west)` instead. -/
theorem contour_rule_consumption_counterexample :
    wallComponents (mazeInit 1 1 []) =
      some [[⟨⟨-1, 0⟩, .south⟩, ⟨⟨0, 1⟩, .west⟩, ⟨⟨1, 0⟩, .north⟩, ⟨⟨0, -1⟩, .east⟩],
        [⟨⟨0, 0⟩, .north⟩, ⟨⟨0, 0⟩, .west⟩, ⟨⟨0, 0⟩, .south⟩, ⟨⟨0, 0⟩, .east⟩]] ∧
      nextWallFun (mazeInit 1 1 []) ⟨⟨0, -1⟩, .east⟩ = some ⟨⟨-1, 0⟩, .south⟩ ∧
      (⟨⟨-1, 0⟩, .south⟩ : Face) ∈
        [(⟨⟨-1, 0⟩, .south⟩ : Face), ⟨⟨0, 1⟩, .west⟩, ⟨⟨1, 0⟩, .north⟩,
          ⟨⟨0, -1⟩, .east⟩] ∧
      nextWallSpec (mazeInit 1 1 [])
          [⟨⟨-1, 0⟩, .south⟩, ⟨⟨0, 1⟩, .west⟩, ⟨⟨1, 0⟩, .north⟩, ⟨⟨0, -1⟩, .east⟩]
          ⟨⟨0, -1⟩, .east⟩ = some ⟨⟨0, 0⟩, .west⟩ ∧
      (some (⟨⟨0, 0⟩, .west⟩ : Face) ≠ some (⟨⟨-1, 0⟩, .south⟩ : Face)) := by
  refine ⟨?_, ?_, ?_, ?_, ?_⟩ <;> decide

/-! ## `maze.py`: `MazeWorker`, `MazeConstructor`, `make_maze`

The generator's randomness (`random()`, `choice`, `sample`) is embedded as
an oracle `Nat → Decision`, consumed one record per worker step and
universally quantified in the theorems: `spawnFlag` is the outcome of
`random() < self.spawn_probability` (over all spawn probabilities in
`[0, 1]` both outcomes range over all Booleans), and `k1`, `k2` select the
random neighbour(s) by index, covering every choice `choice`/`sample` can
make. -/

/-- One random decision record, consumed per `MazeWorker.step`. -/
structure Decision where
  spawnFlag : Bool
  k1 : Nat
  k2 : Nat

/-- A `MazeWorker`'s own state (the maze, spawn probability and constructor
reference are handled by the surrounding state / oracle). -/
structure Worker where
  cell : Pos
  path : List Pos
  alive : Bool
deriving Repr

/-- The state of a `MazeConstructor` run: the maze being carved, the worker
list, the shared visited set, and an error flag modelling any `ValueError`
raised by `move`/`spawn` (never actually raised, as proved below). -/
structure GenState where
  maze : Maze
  workers : List Worker
  visited : Finset Pos
  error : Bool

/-- `MazeWorker.unvisited_neighbors`, as the list of directions (in
`DIRECTIONS` order) whose neighbour is a valid, unvisited cell; `choice` and
`sample` draw from this list via oracle indices. -/
def unvisitedDirs (m : Maze) (vis : Finset Pos) (c : Pos) : List Dir :=
  DIRECTIONS.filter
    (fun d => decide (m.validCell (c.neighbor d)) && decide (c.neighbor d ∉ vis))

/-- One `MazeWorker.backtrack`: pop the path if non-empty; return to the new
top, or retire if the path has emptied. -/
def backtrackOnce (w : Worker) : Worker :=
  let p := w.path.dropLast
  match p.getLast? with
  | some c => { cell := c, path := p, alive := w.alive }
  | none => { cell := w.cell, path := p, alive := false }

/-- The backtracking loop heading `MazeWorker.step`:
`while self.alive and not (un := self.unvisited_neighbors).any:
self.backtrack()`. -/
def backtrackLoop (m : Maze) (vis : Finset Pos) (w : Worker) : Worker :=
  if w.alive = true ∧ unvisitedDirs m vis w.cell = [] then
    backtrackLoop m vis (backtrackOnce w)
  else w
termination_by w.path.length + (if w.alive then 1 else 0)
decreasing_by
  rename_i hcond
  unfold backtrackOnce
  rcases hp : w.path.dropLast.getLast? with _ | c
  · simp only [hp, hcond.1]
    have hnil : w.path.dropLast = [] := by
      cases hq : w.path.dropLast with
      | nil => rfl
      | cons x xs => rw [hq] at hp; simp [List.getLast?_eq_none_iff] at hp
    rw [hnil]
    simp
  · simp only [hp, hcond.1]
    have hne : w.path.dropLast ≠ [] := by
      intro hq
      rw [hq] at hp
      exact absurd hp (by simp)
    have hlen : w.path ≠ [] := by
      intro hq
      rw [hq] at hne
      exact hne rfl
    have := List.length_dropLast w.path
    have hpos : 1 ≤ w.path.length := List.length_pos.mpr hlen
    simp only [this]
    omega

/-- `MazeWorker.move`: knock down the wall toward `d`, move there, push the
new cell onto the path and into the shared visited set. -/
def moveWorker (m : Maze) (vis : Finset Pos) (w : Worker) (d : Dir) :
    Maze × Finset Pos × Worker :=
  let c := w.cell.neighbor d
  (m.removeWallCellDirection w.cell d, insert c vis,
    { cell := c, path := w.path ++ [c], alive := w.alive })

/-- One `MazeWorker.step` for the worker `w`, consuming one oracle record:
backtrack while no unvisited neighbour exists (possibly retiring); then
either spawn into one random unvisited neighbour and move into a second
distinct one (when the spawn coin and `un.number >= 2` allow), or move into
one random unvisited neighbour.  The result is the new maze, visited set and
worker, the spawned worker if any, and an error flag for the (unreachable)
`ValueError` of `move`/`spawn`. -/
def workerStep (dec : Decision) (m : Maze) (vis : Finset Pos) (w : Worker) :
    Maze × Finset Pos × Worker × Option Worker × Bool :=
  if w.alive = false then (m, vis, w, none, false)
  else
    let w1 := backtrackLoop m vis w
    if w1.alive = false then (m, vis, w1, none, false)
    else
      let cands := unvisitedDirs m vis w1.cell
      if cands = [] then (m, vis, w1, none, true)
      else if dec.spawnFlag = true ∧ 2 ≤ cands.length then
        let i := dec.k1 % cands.length
        let j0 := dec.k2 % (cands.length - 1)
        let j := if i ≤ j0 then j0 + 1 else j0
        let d1 := cands.getD i .north
        let d2 := cands.getD j .north
        let c1 := w1.cell.neighbor d1
        let mS := m.removeWallCellDirection w1.cell d1
        let visS := insert c1 vis
        let nw : Worker := ⟨c1, [c1], true⟩
        if mS.validCell (w1.cell.neighbor d2) ∧ w1.cell.neighbor d2 ∉ visS then
          let r := moveWorker mS visS w1 d2
          (r.1, r.2.1, r.2.2, some nw, false)
        else (mS, visS, w1, some nw, true)
      else
        let d := cands.getD (dec.k1 % cands.length) .north
        if m.validCell (w1.cell.neighbor d) ∧ w1.cell.neighbor d ∉ vis then
          let r := moveWorker m vis w1 d
          (r.1, r.2.1, r.2.2, none, false)
        else (m, vis, w1, none, true)

/-- The loop body of `MazeConstructor.step`
(`for w in self.workers: if w.alive: w.step()`), iterating by index so that
workers spawned during the pass are stepped in the same pass, exactly as
Python's `for` over the growing list does.  Fuel exhaustion sets the error
flag (it never triggers with the fuel provided below). -/
def processFrom (oracle : Nat → Decision) :
    Nat → GenState → Nat → Nat → GenState × Nat
  | 0, s, i, n =>
      if i < s.workers.length then ({ s with error := true }, n) else (s, n)
  | fuel + 1, s, i, n =>
      if h : i < s.workers.length then
        match workerStep (oracle n) s.maze s.visited (s.workers.get ⟨i, h⟩) with
        | (m', vis', w', nw, err) =>
            processFrom oracle fuel
              ⟨m', (s.workers.set i w') ++ nw.toList, vis', s.error || err⟩
              (i + 1) (n + 1)
      else (s, n)

/-- The number of valid cells not yet visited. -/
def validCellsList (m : Maze) : List Pos :=
  (intRange 0 (m.rows - 1)).bind
    (fun r => (intRange 0 (m.cols - 1)).map (fun c => ⟨r, c⟩))

def validCellsFinset (m : Maze) : Finset Pos := (validCellsList m).toFinset

def unvisitedCount (s : GenState) : Nat :=
  ((validCellsFinset s.maze) \ s.visited).card

/-- Enough fuel for one full pass of `MazeConstructor.step`. -/
def passFuel (s : GenState) : Nat :=
  s.workers.length + 2 * unvisitedCount s + 1

/-- `MazeConstructor.run_all`:
`while any(w.alive for w in self.workers): self.step()`. -/
def runAllAux (oracle : Nat → Decision) : Nat → GenState → Nat → GenState
  | 0, s, _ => if s.workers.any (·.alive) then { s with error := true } else s
  | fuel + 1, s, n =>
      if s.workers.any (·.alive) then
        let r := processFrom oracle (passFuel s) s 0 n
        runAllAux oracle fuel r.1 r.2
      else s

/-- Enough fuel for the whole construction. -/
def genFuel (rows cols : Int) : Nat := 2 * (rows.toNat * cols.toNat) + 2

/-- `make_maze rows cols exits ...` with the default worker start
`Position(0, 0)`: build the maze, run one initial `MazeWorker` inside a
`MazeConstructor` until all workers retire. -/
def makeMazeState (rows cols : Int) (exits : List MazeExit)
    (oracle : Nat → Decision) : GenState :=
  runAllAux oracle (genFuel rows cols)
    ⟨mazeInit rows cols exits, [⟨⟨0, 0⟩, [⟨0, 0⟩], true⟩], {⟨0, 0⟩}, false⟩ 0

def makeMaze (rows cols : Int) (exits : List MazeExit)
    (oracle : Nat → Decision) : Maze :=
  (makeMazeState rows cols exits oracle).maze

/-! ### The open-interior-wall graph on cells -/

/-- Two valid cells joined by an open shared wall. -/
def openAdj (m : Maze) (p q : Pos) : Prop :=
  m.validCell p ∧ m.validCell q ∧ ∃ d, q = p.neighbor d ∧ m.cellWalls p d = false

theorem openAdj_symm (m : Maze) {p q : Pos} (h : openAdj m p q) : openAdj m q p := by
  obtain ⟨hp, hq, d, rfl, hw⟩ := h
  refine ⟨hq, hp, d.opposite, (neighbor_opposite p d).symm, ?_⟩
  rw [cellWalls_shared]
  exact hw

theorem openAdj_irrefl (m : Maze) (p : Pos) : ¬ openAdj m p p := by
  rintro ⟨_, _, d, he, _⟩
  exact neighbor_ne p d he.symm

/-- The open-interior-wall graph on all positions (invalid positions are
isolated vertices). -/
def posGraph (m : Maze) : SimpleGraph Pos where
  Adj p q := openAdj m p q
  symm := fun _ _ h => openAdj_symm _ h
  loopless := fun p h => openAdj_irrefl _ p h

/-- Interior wall coordinates: walls between two valid cells. -/
def interiorCoord (m : Maze) (wc : WallCoord) : Prop :=
  match wc.orient with
  | .EW => 1 ≤ wc.row ∧ wc.row ≤ m.rows - 1 ∧ 0 ≤ wc.col ∧ wc.col ≤ m.cols - 1
  | .NS => 0 ≤ wc.row ∧ wc.row ≤ m.rows - 1 ∧ 1 ≤ wc.col ∧ wc.col ≤ m.cols - 1

def interiorCoordsList (m : Maze) : List WallCoord :=
  (intRange 1 (m.rows - 1)).bind
    (fun r => (intRange 0 (m.cols - 1)).map (fun c => ⟨.EW, r, c⟩)) ++
    (intRange 0 (m.rows - 1)).bind
      (fun r => (intRange 1 (m.cols - 1)).map (fun c => ⟨.NS, r, c⟩))

/-- The number of interior walls removed so far (initially every interior
wall is present, and the generator never restores a wall). -/
def openInteriorCount (m : Maze) : Nat :=
  ((interiorCoordsList m).filter (fun wc => !m.retrieveWall wc)).length

theorem mem_interiorCoordsList {m : Maze} {wc : WallCoord} :
    wc ∈ interiorCoordsList m ↔ interiorCoord m wc := by
  obtain ⟨o, r, c⟩ := wc
  unfold interiorCoordsList interiorCoord
  rw [List.mem_append]
  simp only [List.mem_bind, List.mem_map, mem_intRange]
  cases o
  · simp only
    constructor
    · rintro (⟨r', hr', c', hc', h⟩ | ⟨r', hr', c', hc', h⟩) <;>
        rw [WallCoord.mk.injEq] at h <;>
        first
          | exact absurd h.1 (by decide)
          | (obtain ⟨_, rfl, rfl⟩ := h
             exact ⟨hr'.1, hr'.2, hc'.1, hc'.2⟩)
    · intro ⟨h1, h2, h3, h4⟩
      exact Or.inr ⟨r, ⟨h1, h2⟩, c, ⟨h3, h4⟩, rfl⟩
  · simp only
    constructor
    · rintro (⟨r', hr', c', hc', h⟩ | ⟨r', hr', c', hc', h⟩) <;>
        rw [WallCoord.mk.injEq] at h <;>
        first
          | exact absurd h.1 (by decide)
          | (obtain ⟨_, rfl, rfl⟩ := h
             exact ⟨hr'.1, hr'.2, hc'.1, hc'.2⟩)
    · intro ⟨h1, h2, h3, h4⟩
      exact Or.inl ⟨r, ⟨h1, h2⟩, c, ⟨h3, h4⟩, rfl⟩

theorem intRange_nodup (lo hi : Int) : (intRange lo hi).Nodup := by
  refine List.Nodup.map ?_ (List.nodup_range _)
  intro a b h
  dsimp only at h
  omega

theorem interiorCoordsList_nodup (m : Maze) : (interiorCoordsList m).Nodup := by
  have hbind : ∀ (o : Orient) (lo1 hi1 lo2 hi2 : Int),
      ((intRange lo1 hi1).bind
        (fun r => (intRange lo2 hi2).map (fun c => (⟨o, r, c⟩ : WallCoord)))).Nodup := by
    intro o lo1 hi1 lo2 hi2
    rw [List.nodup_bind]
    refine ⟨?_, ?_⟩
    · intro r _
      refine List.Nodup.map ?_ (intRange_nodup _ _)
      intro a b h
      rw [WallCoord.mk.injEq] at h
      exact h.2.2
    · rw [List.pairwise_iff_forall_sublist]
      intro r r' hsub
      have hne : r ≠ r' := by
        have hnd : ([r, r'] : List Int).Nodup :=
          List.Nodup.sublist hsub (intRange_nodup _ _)
        simp only [List.nodup_cons, List.mem_singleton] at hnd
        exact hnd.1
      intro x hx hx'
      rw [List.mem_map] at hx hx'
      obtain ⟨c, _, rfl⟩ := hx
      obtain ⟨c', _, h⟩ := hx'
      rw [WallCoord.mk.injEq] at h
      exact hne h.2.1.symm
  refine List.Nodup.append (hbind .EW _ _ _ _) (hbind .NS _ _ _ _) ?_
  intro x hx hx'
  rw [List.mem_bind] at hx hx'
  obtain ⟨r, _, hx⟩ := hx
  obtain ⟨r', _, hx'⟩ := hx'
  rw [List.mem_map] at hx hx'
  obtain ⟨c, _, rfl⟩ := hx
  obtain ⟨c', _, h⟩ := hx'
  rw [WallCoord.mk.injEq] at h
  exact absurd h.1 (by decide)

theorem removeWall_rows (m : Maze) (wc : WallCoord) :
    (m.removeWall wc).rows = m.rows := by
  obtain ⟨o, r, c⟩ := wc
  cases o <;> rfl

theorem removeWall_cols (m : Maze) (wc : WallCoord) :
    (m.removeWall wc).cols = m.cols := by
  obtain ⟨o, r, c⟩ := wc
  cases o <;> rfl

theorem validCell_removeWall (m : Maze) (wc : WallCoord) (p : Pos) :
    (m.removeWall wc).validCell p ↔ m.validCell p := by
  unfold Maze.validCell
  rw [removeWall_rows, removeWall_cols]

theorem retrieveWall_removeWall (m : Maze) (wc wc' : WallCoord) :
    (m.removeWall wc).retrieveWall wc' =
      if wc' = wc then false else m.retrieveWall wc' := by
  obtain ⟨o, r, c⟩ := wc
  obtain ⟨o', r', c'⟩ := wc'
  cases o <;> cases o'
  · simp only [Maze.removeWall, Maze.retrieveWall, updTable, WallCoord.mk.injEq,
      true_and]
    by_cases hA : c' = c ∧ r' = r
    · rw [if_pos hA, if_pos ⟨hA.2, hA.1⟩]
    · rw [if_neg hA, if_neg (fun hB => hA ⟨hB.2, hB.1⟩)]
  · simp only [Maze.removeWall, Maze.retrieveWall, updTable, WallCoord.mk.injEq]
    rw [if_neg (by rintro ⟨h, -, -⟩; exact absurd h (by decide))]
  · simp only [Maze.removeWall, Maze.retrieveWall, updTable, WallCoord.mk.injEq]
    rw [if_neg (by rintro ⟨h, -, -⟩; exact absurd h (by decide))]
  · simp only [Maze.removeWall, Maze.retrieveWall, updTable, WallCoord.mk.injEq,
      true_and]

theorem validWallCoord_removeWall (m : Maze) (wc wc' : WallCoord) :
    (m.removeWall wc).validWallCoord wc' ↔ m.validWallCoord wc' := by
  unfold Maze.validWallCoord
  rw [removeWall_rows, removeWall_cols]

theorem cellWalls_removeWall (m : Maze) (wc : WallCoord) (p : Pos) (d : Dir) :
    (m.removeWall wc).cellWalls p d =
      if p.convertWallCoordinates d = wc then false else m.cellWalls p d := by
  unfold Maze.cellWalls
  by_cases hc : p.convertWallCoordinates d = wc
  · rw [if_pos hc]
    by_cases hv : m.validWallCoord (p.convertWallCoordinates d)
    · rw [if_pos ((validWallCoord_removeWall m wc _).mpr hv),
        retrieveWall_removeWall, if_pos hc]
    · rw [if_neg (fun h => hv ((validWallCoord_removeWall m wc _).mp h))]
  · rw [if_neg hc]
    by_cases hv : m.validWallCoord (p.convertWallCoordinates d)
    · rw [if_pos ((validWallCoord_removeWall m wc _).mpr hv), if_pos hv,
        retrieveWall_removeWall, if_neg hc]
    · rw [if_neg (fun h => hv ((validWallCoord_removeWall m wc _).mp h)), if_neg hv]

/-- Which cell/direction pairs name the same wall key: only the same pair or
the neighbouring cell with the opposite direction. -/
theorem convert_eq_iff (p p' : Pos) (d d' : Dir) :
    p'.convertWallCoordinates d' = p.convertWallCoordinates d ↔
      (p' = p ∧ d' = d) ∨ (p' = p.neighbor d ∧ d' = d.opposite) := by
  obtain ⟨r, c⟩ := p
  obtain ⟨r', c'⟩ := p'
  cases d <;> cases d' <;>
    simp only [Pos.convertWallCoordinates, Pos.neighbor, Dir.opposite,
      WallCoord.mk.injEq, Pos.mk.injEq, and_true, and_false, false_and,
      false_or, or_false, true_and] <;>
    constructor <;>
    intro h <;>
    first
      | (exact absurd h (by rintro ⟨h1, -⟩; exact absurd h1 (by decide)))
      | (rcases h with ⟨h1, h2, h3⟩ | ⟨h1, h2, h3⟩)
      | (rcases h with ⟨⟨h1, h2⟩, h3⟩ | ⟨⟨h1, h2⟩, h3⟩)
      | skip
  all_goals first
    | omega
    | (first
        | exact absurd h.1 (by decide)
        | exact absurd h.2.1 (by decide)
        | exact absurd h.2.2 (by decide)
        | (obtain ⟨h1, h2, h3⟩ := h
           first
             | exact Or.inl (by constructor <;> omega)
             | exact Or.inr (by constructor <;> omega)
             | omega))
    | (rcases h with ⟨h1, h2⟩ | ⟨h1, h2⟩ <;> constructor <;> omega)

/-- Flipping one list element from failing to passing a filter increases the
filtered length by one. -/
theorem count_flip {α : Type} [DecidableEq α] (l : List α) (hnd : l.Nodup)
    (a : α) (ha : a ∈ l) (f g : α → Bool) (hfa : f a = false) (hga : g a = true)
    (hfg : ∀ x, x ≠ a → g x = f x) :
    (l.filter g).length = (l.filter f).length + 1 := by
  induction l with
  | nil => cases ha
  | cons b t ih =>
      rw [List.nodup_cons] at hnd
      rcases List.mem_cons.mp ha with rfl | hat
      · rw [List.filter_cons, List.filter_cons, hfa, hga]
        simp only [if_pos, if_neg, Bool.false_eq_true, if_false, if_true]
        have hsame : t.filter g = t.filter f :=
          List.filter_congr (fun x hx => hfg x (fun he => hnd.1 (he ▸ hx)))
        rw [hsame]
        simp
      · have hba : b ≠ a := fun he => hnd.1 (he ▸ hat)
        rw [List.filter_cons, List.filter_cons, hfg b hba]
        by_cases hfb : f b = true
        · rw [if_pos hfb, if_pos hfb]
          simp only [List.length_cons]
          rw [ih hnd.2 hat]
        · rw [if_neg hfb, if_neg hfb]
          exact ih hnd.2 hat

theorem openInteriorCount_removeWall (m : Maze) (wc : WallCoord)
    (hint : interiorCoord m wc) (hw : m.retrieveWall wc = true) :
    openInteriorCount (m.removeWall wc) = openInteriorCount m + 1 := by
  unfold openInteriorCount
  have hlist : interiorCoordsList (m.removeWall wc) = interiorCoordsList m := by
    unfold interiorCoordsList
    rw [removeWall_rows, removeWall_cols]
  rw [hlist]
  refine count_flip _ (interiorCoordsList_nodup m) wc
    (mem_interiorCoordsList.mpr hint) _ _ ?_ ?_ ?_
  · rw [hw]
    rfl
  · rw [retrieveWall_removeWall, if_pos rfl]
    rfl
  · intro x hx
    rw [retrieveWall_removeWall, if_neg hx]

theorem applyExit_rows (m : Maze) (e : MazeExit) : (applyExit m e).rows = m.rows := by
  rcases e with ⟨wd, loc⟩
  cases wd <;> rfl

theorem applyExit_cols (m : Maze) (e : MazeExit) : (applyExit m e).cols = m.cols := by
  rcases e with ⟨wd, loc⟩
  cases wd <;> rfl

theorem interiorCoord_applyExit (m : Maze) (e : MazeExit) (wc : WallCoord) :
    interiorCoord (applyExit m e) wc ↔ interiorCoord m wc := by
  obtain ⟨o, r, c⟩ := wc
  cases o <;>
    · unfold interiorCoord
      rw [applyExit_rows, applyExit_cols]

/-- Opening an exit never touches an interior wall: exits open only walls on
the boundary lines (`EW` rows `0`/`rows`, `NS` columns `0`/`cols`). -/
theorem retrieve_applyExit_interior (m : Maze) (e : MazeExit) (wc : WallCoord)
    (h : interiorCoord m wc) : (applyExit m e).retrieveWall wc = m.retrieveWall wc := by
  obtain ⟨o, r, c⟩ := wc
  rcases e with ⟨wd, loc⟩
  cases wd <;> cases o <;>
    simp only [applyExit, MazeExit.cellPosition, Maze.retrieveWall, updTable] <;>
    try rfl
  all_goals
    rw [if_neg ?_]
    rintro ⟨h1, -⟩
    unfold interiorCoord at h
    simp only at h
    omega

theorem foldl_applyExit_rows (l : List MazeExit) :
    ∀ m₀ : Maze, (List.foldl applyExit m₀ l).rows = m₀.rows := by
  induction l with
  | nil => intro m₀; rfl
  | cons e t ih =>
      intro m₀
      rw [List.foldl_cons, ih, applyExit_rows]

theorem foldl_applyExit_cols (l : List MazeExit) :
    ∀ m₀ : Maze, (List.foldl applyExit m₀ l).cols = m₀.cols := by
  induction l with
  | nil => intro m₀; rfl
  | cons e t ih =>
      intro m₀
      rw [List.foldl_cons, ih, applyExit_cols]

theorem foldl_applyExit_retrieve_interior (l : List MazeExit) :
    ∀ (m₀ : Maze) (wc : WallCoord), interiorCoord m₀ wc →
      (List.foldl applyExit m₀ l).retrieveWall wc = m₀.retrieveWall wc := by
  induction l with
  | nil => intro m₀ wc _; rfl
  | cons e t ih =>
      intro m₀ wc h
      rw [List.foldl_cons, ih (applyExit m₀ e) wc ((interiorCoord_applyExit m₀ e wc).mpr h),
        retrieve_applyExit_interior m₀ e wc h]

theorem mazeInit_rows (rows cols : Int) (exits : List MazeExit) :
    (mazeInit rows cols exits).rows = rows := by
  unfold mazeInit
  rw [foldl_applyExit_rows]

theorem mazeInit_cols (rows cols : Int) (exits : List MazeExit) :
    (mazeInit rows cols exits).cols = cols := by
  unfold mazeInit
  rw [foldl_applyExit_cols]

/-- At construction every interior wall is present (for any exit list,
including out-of-range offsets: exits only write to boundary lines). -/
theorem mazeInit_interior_true (rows cols : Int) (exits : List MazeExit)
    (wc : WallCoord) (h : interiorCoord (mazeInit rows cols exits) wc) :
    (mazeInit rows cols exits).retrieveWall wc = true := by
  unfold mazeInit at h ⊢
  have hbase : interiorCoord
      { rows := rows, cols := cols, exits := exits,
        ns := fun _ _ => true, ew := fun _ _ => true } wc := by
    obtain ⟨o, r, c⟩ := wc
    cases o <;>
      · unfold interiorCoord at h ⊢
        rw [foldl_applyExit_rows, foldl_applyExit_cols] at h
        exact h
  rw [foldl_applyExit_retrieve_interior exits _ wc hbase]
  obtain ⟨o, r, c⟩ := wc
  cases o <;> rfl

theorem openInteriorCount_mazeInit (rows cols : Int) (exits : List MazeExit) :
    openInteriorCount (mazeInit rows cols exits) = 0 := by
  unfold openInteriorCount
  rw [List.length_eq_zero, List.filter_eq_nil]
  intro wc hwc
  rw [mazeInit_interior_true rows cols exits wc (mem_interiorCoordsList.mp hwc)]
  simp

/-- Carving the wall between `p` and its neighbour adds exactly that one
edge to the open-wall graph. -/
theorem posGraph_removeWall_adj (m : Maze) (p : Pos) (d : Dir)
    (hp : m.validCell p) (hq : m.validCell (p.neighbor d)) (a b : Pos) :
    (posGraph (m.removeWallCellDirection p d)).Adj a b ↔
      (posGraph m).Adj a b ∨ (a = p ∧ b = p.neighbor d) ∨
        (a = p.neighbor d ∧ b = p) := by
  show openAdj (m.removeWall (p.convertWallCoordinates d)) a b ↔ openAdj m a b ∨ _
  unfold openAdj
  constructor
  · rintro ⟨ha, hb, d', rfl, hw⟩
    rw [validCell_removeWall] at ha hb
    rw [cellWalls_removeWall] at hw
    by_cases hcv : a.convertWallCoordinates d' = p.convertWallCoordinates d
    · rcases (convert_eq_iff p a d d').mp hcv with ⟨rfl, rfl⟩ | ⟨rfl, rfl⟩
      · exact Or.inr (Or.inl ⟨rfl, rfl⟩)
      · exact Or.inr (Or.inr ⟨rfl, neighbor_opposite p d⟩)
    · rw [if_neg hcv] at hw
      exact Or.inl ⟨ha, hb, d', rfl, hw⟩
  · rintro (⟨ha, hb, d', rfl, hw⟩ | ⟨hap, hbp⟩ | ⟨hap, hbp⟩)
    · refine ⟨(validCell_removeWall m _ a).mpr ha,
        (validCell_removeWall m _ _).mpr hb, d', rfl, ?_⟩
      rw [cellWalls_removeWall]
      by_cases hcv : a.convertWallCoordinates d' = p.convertWallCoordinates d
      · rw [if_pos hcv]
      · rw [if_neg hcv]
        exact hw
    · rw [hap, hbp]
      refine ⟨(validCell_removeWall m _ p).mpr hp,
        (validCell_removeWall m _ _).mpr hq, d, rfl, ?_⟩
      rw [cellWalls_removeWall, if_pos rfl]
    · rw [hap, hbp]
      refine ⟨(validCell_removeWall m _ _).mpr hq,
        (validCell_removeWall m _ p).mpr hp, d.opposite,
        (neighbor_opposite p d).symm, ?_⟩
      rw [cellWalls_removeWall, if_pos (convert_shared_key p d)]

/-- Carving never closes a wall: open-wall adjacency is monotone. -/
theorem openAdj_removeWall_mono (m : Maze) (wc : WallCoord) {a b : Pos}
    (h : openAdj m a b) : openAdj (m.removeWall wc) a b := by
  obtain ⟨ha, hb, d', rfl, hw⟩ := h
  refine ⟨(validCell_removeWall m wc a).mpr ha,
    (validCell_removeWall m wc _).mpr hb, d', rfl, ?_⟩
  rw [cellWalls_removeWall]
  by_cases hcv : a.convertWallCoordinates d' = wc
  · rw [if_pos hcv]
  · rw [if_neg hcv]
    exact hw

/-- Adding a pendant edge `u — v` to an acyclic graph, where `v` is an
isolated vertex, keeps the graph acyclic: a cycle cannot pass through a
degree-one vertex, and a cycle avoiding `v` lives in the old graph. -/
theorem isAcyclic_pendant {V : Type} [DecidableEq V] {G G' : SimpleGraph V}
    (u v : V) (huv : u ≠ v)
    (hchar : ∀ a b, G'.Adj a b ↔ G.Adj a b ∨ (a = u ∧ b = v) ∨ (a = v ∧ b = u))
    (hv : ∀ x, ¬ G.Adj v x) (hG : G.IsAcyclic) : G'.IsAcyclic := by
  intro a c hc
  by_cases hvs : v ∈ c.support
  · have hc' := hc.rotate hvs
    set c' := c.rotate hvs with hc'def
    clear_value c'
    cases c' with
    | nil => exact hc'.not_of_nil
    | cons h p =>
        rename_i w₁
        have hw₁ : w₁ = u := by
          rcases (hchar v w₁).mp h with hadj | ⟨hvu, -⟩ | ⟨-, hbu⟩
          · exact absurd hadj (hv w₁)
          · exact absurd hvu.symm huv
          · exact hbu
        subst hw₁
        have hlen : 2 ≤ p.length := by
          have := hc'.three_le_length
          simp only [SimpleGraph.Walk.length_cons] at this
          omega
        have hpath : p.IsPath := ((SimpleGraph.Walk.cons_isCycle_iff p h).mp hc').1
        have hnotnil : ¬ p.reverse.Nil := by
          rw [SimpleGraph.Walk.nil_iff_length_eq, SimpleGraph.Walk.length_reverse]
          omega
        rcases hrev : p.reverse with _ | ⟨h2, q⟩
        · rw [hrev] at hnotnil
          exact hnotnil SimpleGraph.Walk.nil_nil
        · rename_i w₂
          have hw₂ : w₂ = w₁ := by
            rcases (hchar v w₂).mp h2 with hadj | ⟨hvu, -⟩ | ⟨-, hbu⟩
            · exact absurd hadj (hv w₂)
            · exact absurd hvu.symm huv
            · exact hbu
          subst hw₂
          have hqpath : q.IsPath ∧ v ∉ q.support := by
            have := hpath.reverse
            rw [hrev] at this
            rw [SimpleGraph.Walk.cons_isPath_iff] at this
            exact this
          have hqnil : q = SimpleGraph.Walk.nil :=
            (SimpleGraph.Walk.isPath_iff_eq_nil q).mp hqpath.1
          have : p.length = 1 := by
            have := congrArg SimpleGraph.Walk.length hrev
            rw [SimpleGraph.Walk.length_reverse] at this
            rw [this, hqnil]
            rfl
          omega
  · have hedges : ∀ e ∈ c.edges, e ∈ G.edgeSet := by
      intro e he
      induction e using Sym2.ind with
      | _ x y =>
          have hx := SimpleGraph.Walk.fst_mem_support_of_mem_edges c he
          have hy := SimpleGraph.Walk.snd_mem_support_of_mem_edges c he
          have hadj : G'.Adj x y := SimpleGraph.Walk.adj_of_mem_edges c he
          rw [SimpleGraph.mem_edgeSet]
          rcases (hchar x y).mp hadj with hadj' | ⟨-, rfl⟩ | ⟨rfl, -⟩
          · exact hadj'
          · exact absurd hy hvs
          · exact absurd hx hvs
    exact hG (c.transfer G hedges) (hc.transfer hedges)

/-! ### C1 support: valid-cell enumeration and neighbour lemmas -/

/-- The default `mazeworker_start = Position(0, 0)` of `make_maze`. -/
def startCell : Pos := ⟨0, 0⟩

theorem mem_validCellsList {m : Maze} {p : Pos} :
    p ∈ validCellsList m ↔ m.validCell p := by
  obtain ⟨r, c⟩ := p
  unfold validCellsList Maze.validCell
  simp only [List.mem_bind, List.mem_map, mem_intRange]
  constructor
  · rintro ⟨r', hr', c', hc', h⟩
    rw [Pos.mk.injEq] at h
    obtain ⟨rfl, rfl⟩ := h
    exact ⟨hr'.1, by omega, hc'.1, by omega⟩
  · intro ⟨h1, h2, h3, h4⟩
    exact ⟨r, ⟨h1, by omega⟩, c, ⟨h3, by omega⟩, rfl⟩

theorem validCellsList_nodup (m : Maze) : (validCellsList m).Nodup := by
  unfold validCellsList
  rw [List.nodup_bind]
  constructor
  · intro r _
    refine List.Nodup.map ?_ (intRange_nodup _ _)
    intro a b h
    rw [Pos.mk.injEq] at h
    exact h.2
  · rw [List.pairwise_iff_forall_sublist]
    intro r r' hsub
    have hne : r ≠ r' := by
      have hnd : ([r, r'] : List Int).Nodup :=
        List.Nodup.sublist hsub (intRange_nodup _ _)
      simp only [List.nodup_cons, List.mem_singleton] at hnd
      exact hnd.1
    intro x hx hx'
    rw [List.mem_map] at hx hx'
    obtain ⟨c, _, rfl⟩ := hx
    obtain ⟨c', _, h⟩ := hx'
    rw [Pos.mk.injEq] at h
    exact hne h.1.symm

theorem intRange_length (lo hi : Int) :
    (intRange lo hi).length = (hi + 1 - lo).toNat := by
  unfold intRange
  rw [List.length_map, List.length_range]

theorem validCellsList_length (m : Maze) :
    (validCellsList m).length = m.rows.toNat * m.cols.toNat := by
  unfold validCellsList
  rw [List.length_bind]
  have h1 : (intRange 0 (m.rows - 1)).map
      (fun r => ((intRange 0 (m.cols - 1)).map (fun c => (⟨r, c⟩ : Pos))).length) =
      List.replicate m.rows.toNat m.cols.toNat := by
    rw [List.eq_replicate]
    constructor
    · rw [List.length_map, intRange_length]
      omega
    · intro b hb
      rw [List.mem_map] at hb
      obtain ⟨r, _, rfl⟩ := hb
      rw [List.length_map, intRange_length]
      omega
  simp only [Function.comp_def]
  rw [h1, List.sum_replicate, smul_eq_mul]

theorem mem_validCellsFinset {m : Maze} {p : Pos} :
    p ∈ validCellsFinset m ↔ m.validCell p := by
  unfold validCellsFinset
  rw [List.mem_toFinset]
  exact mem_validCellsList

theorem validCellsFinset_card (m : Maze) :
    (validCellsFinset m).card = m.rows.toNat * m.cols.toNat := by
  unfold validCellsFinset
  rw [List.toFinset_card_of_nodup (validCellsList_nodup m), validCellsList_length]

theorem validCellsFinset_eq_of_dims {m m' : Maze} (h1 : m.rows = m'.rows)
    (h2 : m.cols = m'.cols) : validCellsFinset m = validCellsFinset m' := by
  unfold validCellsFinset validCellsList
  rw [h1, h2]

theorem validCell_eq_of_dims {m m' : Maze} (h1 : m.rows = m'.rows)
    (h2 : m.cols = m'.cols) (p : Pos) : m.validCell p ↔ m'.validCell p := by
  unfold Maze.validCell
  rw [h1, h2]

/-- No two distinct directions give the same neighbour of a cell. -/
theorem neighbor_dir_inj {p : Pos} {d d' : Dir}
    (h : p.neighbor d = p.neighbor d') : d = d' := by
  obtain ⟨r, c⟩ := p
  cases d <;> cases d' <;>
    simp only [Pos.neighbor, Pos.mk.injEq] at h <;>
    first | rfl | (exfalso; omega)

/-- The wall key shared by two valid neighbouring cells is an interior
coordinate. -/
theorem shared_interior (m : Maze) (p : Pos) (d : Dir) (hp : m.validCell p)
    (hq : m.validCell (p.neighbor d)) :
    interiorCoord m (p.convertWallCoordinates d) := by
  obtain ⟨r, c⟩ := p
  cases d <;>
  · unfold Maze.validCell at hp hq
    simp only [Pos.neighbor] at hq
    unfold Pos.convertWallCoordinates interiorCoord
    dsimp only at hp hq ⊢
    omega

theorem interiorCoord_validWallCoord (m : Maze) (wc : WallCoord)
    (h : interiorCoord m wc) : m.validWallCoord wc := by
  obtain ⟨o, r, c⟩ := wc
  cases o <;>
  · unfold interiorCoord at h
    unfold Maze.validWallCoord
    dsimp only at h ⊢
    exact ⟨by omega, Or.inl (by omega), by omega, Or.inl (by omega)⟩

theorem cellWalls_eq_retrieve_interior (m : Maze) (p : Pos) (d : Dir)
    (h : interiorCoord m (p.convertWallCoordinates d)) :
    m.cellWalls p d = m.retrieveWall (p.convertWallCoordinates d) := by
  unfold Maze.cellWalls
  rw [if_pos (interiorCoord_validWallCoord m _ h)]

/-- "Every valid neighbour of `p` has been visited." -/
def allNbVisited (m : Maze) (vis : Finset Pos) (p : Pos) : Prop :=
  ∀ d, m.validCell (p.neighbor d) → p.neighbor d ∈ vis

theorem mem_unvisitedDirs {m : Maze} {vis : Finset Pos} {c : Pos} {d : Dir} :
    d ∈ unvisitedDirs m vis c ↔
      m.validCell (c.neighbor d) ∧ c.neighbor d ∉ vis := by
  unfold unvisitedDirs
  rw [List.mem_filter]
  simp only [Bool.and_eq_true, decide_eq_true_eq]
  constructor
  · rintro ⟨-, h1, h2⟩
    exact ⟨h1, h2⟩
  · intro ⟨h1, h2⟩
    exact ⟨by cases d <;> decide, h1, h2⟩

theorem unvisitedDirs_eq_nil {m : Maze} {vis : Finset Pos} {c : Pos} :
    unvisitedDirs m vis c = [] ↔ allNbVisited m vis c := by
  constructor
  · intro h d hd
    by_contra hmem
    have hin : d ∈ unvisitedDirs m vis c := mem_unvisitedDirs.mpr ⟨hd, hmem⟩
    rw [h] at hin
    cases hin
  · intro h
    rw [List.eq_nil_iff_forall_not_mem]
    intro d hd
    obtain ⟨h1, h2⟩ := mem_unvisitedDirs.mp hd
    exact h2 (h d h1)

theorem unvisitedDirs_nodup (m : Maze) (vis : Finset Pos) (c : Pos) :
    (unvisitedDirs m vis c).Nodup :=
  List.Nodup.filter _ (by decide)

theorem allNbVisited_mono {m m' : Maze} {vis vis' : Finset Pos} {p : Pos}
    (hd1 : m.rows = m'.rows) (hd2 : m.cols = m'.cols) (hv : vis ⊆ vis')
    (h : allNbVisited m vis p) : allNbVisited m' vis' p := by
  intro d hdv
  exact hv (h d ((validCell_eq_of_dims hd1 hd2 _).mpr hdv))

/-! ### C1 support: the construction invariant -/

/-- Number of alive workers. -/
def aliveCount (ws : List Worker) : Nat := (ws.filter (·.alive)).length

theorem aliveCount_nil : aliveCount [] = 0 := rfl

theorem aliveCount_cons (w : Worker) (t : List Worker) :
    aliveCount (w :: t) = (if w.alive then 1 else 0) + aliveCount t := by
  unfold aliveCount
  rw [List.filter_cons]
  by_cases h : w.alive
  · rw [if_pos h, if_pos h, List.length_cons]
    omega
  · rw [if_neg h, if_neg h]
    omega

theorem aliveCount_append (l₁ l₂ : List Worker) :
    aliveCount (l₁ ++ l₂) = aliveCount l₁ + aliveCount l₂ := by
  unfold aliveCount
  rw [List.filter_append, List.length_append]

theorem aliveCount_set (ws : List Worker) :
    ∀ (i : Nat) (hi : i < ws.length) (w' : Worker),
      aliveCount (ws.set i w') + (if (ws.get ⟨i, hi⟩).alive then 1 else 0) =
        aliveCount ws + (if w'.alive then 1 else 0) := by
  induction ws with
  | nil => intro i hi; cases hi
  | cons b t ih =>
      intro i hi w'
      cases i with
      | zero =>
          rw [List.set_cons_zero, aliveCount_cons, aliveCount_cons]
          simp only [List.get]
          omega
      | succ j =>
          rw [List.set_cons_succ, aliveCount_cons, aliveCount_cons]
          simp only [List.get]
          have := ih j (by simpa using hi) w'
          omega

theorem aliveCount_pos_of_any (ws : List Worker)
    (h : ws.any (·.alive) = true) : 1 ≤ aliveCount ws := by
  rw [List.any_eq_true] at h
  obtain ⟨w, hw, hal⟩ := h
  unfold aliveCount
  have : w ∈ ws.filter (·.alive) := List.mem_filter.mpr ⟨hw, hal⟩
  exact List.length_pos.mpr (fun he => by rw [he] at this; cases this)

/-- The invariant maintained by the maze construction.  `startCell` is the
initial worker's cell. -/
structure GenInv (s : GenState) : Prop where
  err : s.error = false
  visValid : ∀ p ∈ s.visited, s.maze.validCell p
  rootVis : startCell ∈ s.visited
  pathVis : ∀ w ∈ s.workers, ∀ p ∈ w.path, p ∈ s.visited
  aliveLast : ∀ w ∈ s.workers, w.alive = true → w.path.getLast? = some w.cell
  frontier : ∀ p ∈ s.visited,
    (∃ j : Fin s.workers.length,
      (s.workers.get j).alive = true ∧ p ∈ (s.workers.get j).path) ∨
    allNbVisited s.maze s.visited p
  wallVis : ∀ p d, s.maze.validCell p → s.maze.validCell (p.neighbor d) →
    s.maze.cellWalls p d = false → p ∈ s.visited ∧ p.neighbor d ∈ s.visited
  conn : ∀ p ∈ s.visited, Relation.ReflTransGen (openAdj s.maze) startCell p
  count : openInteriorCount s.maze + 1 = s.visited.card
  acy : (posGraph s.maze).IsAcyclic

theorem backtrackOnce_path (w : Worker) :
    (backtrackOnce w).path = w.path.dropLast := by
  unfold backtrackOnce
  dsimp only
  cases hp : w.path.dropLast.getLast? <;> rfl

theorem backtrackOnce_alive (w : Worker) :
    (backtrackOnce w).alive = true → w.alive = true := by
  unfold backtrackOnce
  dsimp only
  cases hp : w.path.dropLast.getLast? with
  | none => intro h; cases h
  | some c => exact fun h => h

theorem backtrackOnce_last (w : Worker) (h : (backtrackOnce w).alive = true) :
    (backtrackOnce w).path.getLast? = some (backtrackOnce w).cell := by
  unfold backtrackOnce at h ⊢
  dsimp only at h ⊢
  cases hp : w.path.dropLast.getLast? with
  | none =>
      rw [hp] at h
      exact absurd h (by simp)
  | some c => rw [hp]

theorem backtrackOnce_dead_path (w : Worker)
    (h : (backtrackOnce w).alive = false) (hw : w.alive = true) :
    (backtrackOnce w).path = [] := by
  unfold backtrackOnce at h ⊢
  dsimp only at h ⊢
  cases hp : w.path.dropLast.getLast? with
  | none =>
      dsimp only
      rw [List.getLast?_eq_none_iff] at hp
      exact hp
  | some c =>
      rw [hp] at h
      dsimp only at h
      rw [hw] at h
      exact absurd h (by simp)

theorem backtrackOnce_measure (w : Worker) (hw : w.alive = true)
    (hne : w.path ≠ []) :
    (backtrackOnce w).path.length +
        (if (backtrackOnce w).alive then 1 else 0) <
      w.path.length + (if w.alive then 1 else 0) := by
  rw [backtrackOnce_path, List.length_dropLast, hw]
  have hpos : 1 ≤ w.path.length := List.length_pos.mpr hne
  by_cases h : (backtrackOnce w).alive <;> [rw [if_pos h]; rw [if_neg h]] <;>
    simp only [if_true] <;> omega

/-- Full specification of the backtracking loop at the head of
`MazeWorker.step`, for an alive worker whose cell tops its path:
the result's path cells come from the original path, liveness only decays,
an alive result sits on a cell with an unvisited neighbour atop its path,
every dropped cell has all valid neighbours visited, and a retired result
has an empty path. -/
theorem backtrackLoop_spec (m : Maze) (vis : Finset Pos) :
    ∀ (n : Nat) (w : Worker),
      w.path.length + (if w.alive then 1 else 0) ≤ n →
      (w.alive = true → w.path.getLast? = some w.cell) →
      (∀ p ∈ (backtrackLoop m vis w).path, p ∈ w.path) ∧
      ((backtrackLoop m vis w).alive = true → w.alive = true) ∧
      ((backtrackLoop m vis w).alive = true →
        (backtrackLoop m vis w).path.getLast? =
            some (backtrackLoop m vis w).cell ∧
          unvisitedDirs m vis (backtrackLoop m vis w).cell ≠ []) ∧
      (∀ p ∈ w.path,
        p ∈ (backtrackLoop m vis w).path ∨ allNbVisited m vis p) ∧
      ((backtrackLoop m vis w).alive = false → w.alive = true →
        (backtrackLoop m vis w).path = []) := by
  intro n
  induction n with
  | zero =>
      intro w hn hlast
      by_cases hw : w.alive = true
      · rw [hw] at hn
        simp only [if_true] at hn
        omega
      · rw [backtrackLoop, if_neg (fun hc => hw hc.1)]
        refine ⟨fun p hp => hp, fun h => h, fun h => absurd h hw, ?_, ?_⟩
        · exact fun p hp => Or.inl hp
        · intro _ hw'
          exact absurd hw' hw
  | succ n ih =>
      intro w hn hlast
      by_cases hcond : w.alive = true ∧ unvisitedDirs m vis w.cell = []
      · rw [backtrackLoop, if_pos hcond]
        have hpne : w.path ≠ [] := by
          intro he
          have := hlast hcond.1
          rw [he] at this
          cases this
        have hmeas := backtrackOnce_measure w hcond.1 hpne
        have hrec := ih (backtrackOnce w) (by omega) (backtrackOnce_last w)
        obtain ⟨h1, h2, h3, h4, h5⟩ := hrec
        have hdecomp : ∀ p ∈ w.path, p ∈ w.path.dropLast ∨ p = w.cell := by
          intro p hp
          have hcell : w.path.getLast hpne = w.cell := by
            have := hlast hcond.1
            rw [List.getLast?_eq_getLast w.path hpne] at this
            exact Option.some.inj this
          conv at hp => rw [← List.dropLast_append_getLast hpne]
          rcases List.mem_append.mp hp with h | h
          · exact Or.inl h
          · rw [List.mem_singleton] at h
            exact Or.inr (h.trans hcell)
        have hclosed : allNbVisited m vis w.cell := unvisitedDirs_eq_nil.mp hcond.2
        refine ⟨?_, ?_, h3, ?_, ?_⟩
        · intro p hp
          have := h1 p hp
          rw [backtrackOnce_path] at this
          exact List.dropLast_subset _ this
        · exact fun h => hcond.1
        · intro p hp
          rcases hdecomp p hp with h | rfl
          · rw [← backtrackOnce_path] at h
            exact h4 p h
          · exact Or.inr hclosed
        · intro hdead _
          by_cases hba : (backtrackOnce w).alive = true
          · exact h5 hdead hba
          · rw [Bool.not_eq_true] at hba
            have hbp : (backtrackOnce w).path = [] :=
              backtrackOnce_dead_path w hba hcond.1
            rw [backtrackLoop,
              if_neg (fun hc => by rw [hc.1] at hba; exact Bool.noConfusion hba)]
            exact hbp
      · rw [backtrackLoop, if_neg hcond]
        refine ⟨fun p hp => hp, fun h => h, ?_, fun p hp => Or.inl hp, ?_⟩
        · intro hal
          refine ⟨hlast hal, ?_⟩
          intro hnil
          exact hcond ⟨hal, hnil⟩
        · intro hdead hal
          rw [hal] at hdead
          cases hdead

/-- A graph with no edges is acyclic. -/
theorem isAcyclic_of_no_adj {V : Type} {G : SimpleGraph V}
    (h : ∀ a b, ¬ G.Adj a b) : G.IsAcyclic := by
  intro a c hc
  cases c with
  | nil => exact hc.not_of_nil
  | cons hadj p => exact h _ _ hadj

/-- Carving the wall from a visited cell `p` into a fresh valid cell
`p.neighbor d` preserves every maze-side invariant clause: validity of the
visited set, the wall-visited property, connectivity to the start, the
wall-count equality and acyclicity — and the new cell becomes visited. -/
theorem carve_inv (m : Maze) (vis : Finset Pos) (p : Pos) (d : Dir)
    (hvalid : ∀ q ∈ vis, m.validCell q)
    (hroot : startCell ∈ vis)
    (hwall : ∀ a e, m.validCell a → m.validCell (a.neighbor e) →
      m.cellWalls a e = false → a ∈ vis ∧ a.neighbor e ∈ vis)
    (hconn : ∀ q ∈ vis, Relation.ReflTransGen (openAdj m) startCell q)
    (hcount : openInteriorCount m + 1 = vis.card)
    (hacy : (posGraph m).IsAcyclic)
    (hp : p ∈ vis) (hnv : m.validCell (p.neighbor d))
    (hfresh : p.neighbor d ∉ vis) :
    (∀ q ∈ insert (p.neighbor d) vis,
      (m.removeWallCellDirection p d).validCell q) ∧
    startCell ∈ insert (p.neighbor d) vis ∧
    (∀ a e, (m.removeWallCellDirection p d).validCell a →
      (m.removeWallCellDirection p d).validCell (a.neighbor e) →
      (m.removeWallCellDirection p d).cellWalls a e = false →
      a ∈ insert (p.neighbor d) vis ∧
        a.neighbor e ∈ insert (p.neighbor d) vis) ∧
    (∀ q ∈ insert (p.neighbor d) vis,
      Relation.ReflTransGen (openAdj (m.removeWallCellDirection p d))
        startCell q) ∧
    openInteriorCount (m.removeWallCellDirection p d) + 1 =
      (insert (p.neighbor d) vis).card ∧
    (posGraph (m.removeWallCellDirection p d)).IsAcyclic ∧
    (m.removeWallCellDirection p d).rows = m.rows ∧
    (m.removeWallCellDirection p d).cols = m.cols := by
  have hpv : m.validCell p := hvalid p hp
  have hint : interiorCoord m (p.convertWallCoordinates d) :=
    shared_interior m p d hpv hnv
  have hrows : (m.removeWallCellDirection p d).rows = m.rows :=
    removeWall_rows m _
  have hcols : (m.removeWallCellDirection p d).cols = m.cols :=
    removeWall_cols m _
  have hwtrue : m.retrieveWall (p.convertWallCoordinates d) = true := by
    by_contra hwf
    rw [Bool.not_eq_true] at hwf
    have hcw : m.cellWalls p d = false := by
      rw [cellWalls_eq_retrieve_interior m p d hint]
      exact hwf
    exact hfresh (hwall p d hpv hnv hcw).2
  refine ⟨?_, Finset.mem_insert_of_mem hroot, ?_, ?_, ?_, ?_, hrows, hcols⟩
  · intro q hq
    unfold Maze.removeWallCellDirection
    rw [validCell_removeWall]
    rcases Finset.mem_insert.mp hq with rfl | hq'
    · exact hnv
    · exact hvalid q hq'
  · intro a e ha hae hcw
    unfold Maze.removeWallCellDirection at ha hae hcw
    rw [validCell_removeWall] at ha hae
    rw [cellWalls_removeWall] at hcw
    by_cases hkey : a.convertWallCoordinates e = p.convertWallCoordinates d
    · rcases (convert_eq_iff p a d e).mp hkey with ⟨rfl, rfl⟩ | ⟨rfl, rfl⟩
      · exact ⟨Finset.mem_insert_of_mem hp, Finset.mem_insert_self _ _⟩
      · rw [neighbor_opposite]
        exact ⟨Finset.mem_insert_self _ _, Finset.mem_insert_of_mem hp⟩
    · rw [if_neg hkey] at hcw
      obtain ⟨h1, h2⟩ := hwall a e ha hae hcw
      exact ⟨Finset.mem_insert_of_mem h1, Finset.mem_insert_of_mem h2⟩
  · have hadjnew : openAdj (m.removeWallCellDirection p d) p (p.neighbor d) := by
      refine ⟨(validCell_removeWall m _ p).mpr hpv,
        (validCell_removeWall m _ _).mpr hnv, d, rfl, ?_⟩
      unfold Maze.removeWallCellDirection
      rw [cellWalls_removeWall, if_pos rfl]
    intro q hq
    rcases Finset.mem_insert.mp hq with rfl | hq'
    · exact Relation.ReflTransGen.tail
        ((hconn p hp).mono (fun a b hab => openAdj_removeWall_mono m _ hab))
        hadjnew
    · exact (hconn q hq').mono (fun a b hab => openAdj_removeWall_mono m _ hab)
  · unfold Maze.removeWallCellDirection
    rw [openInteriorCount_removeWall m _ hint hwtrue,
      Finset.card_insert_of_not_mem hfresh]
    omega
  · refine isAcyclic_pendant p (p.neighbor d) (neighbor_ne p d).symm
      (fun a b => posGraph_removeWall_adj m p d hpv hnv a b) ?_ hacy
    intro x hadj
    obtain ⟨h1, h2, e, rfl, hcw⟩ := hadj
    exact hfresh (hwall (p.neighbor d) e h1 h2 hcw).1

/-! ### C1 support: unfolding `workerStep` branch by branch -/

theorem getD_mem_of_lt {α : Type} {l : List α} {k : Nat} (h : k < l.length)
    (a : α) : l.getD k a ∈ l := by
  rw [List.getD_eq_getElem?_getD, List.getElem?_eq_getElem h]
  simpa using List.getElem_mem h

theorem getD_eq_get {α : Type} {l : List α} {k : Nat} (h : k < l.length)
    (a : α) : l.getD k a = l.get ⟨k, h⟩ := by
  rw [List.getD_eq_getElem?_getD, List.getElem?_eq_getElem h]
  rfl

theorem getLast?_mem_self {α : Type} {l : List α} {a : α}
    (h : l.getLast? = some a) : a ∈ l := by
  have hne : l ≠ [] := by
    intro he
    rw [he] at h
    cases h
  rw [List.getLast?_eq_getLast l hne] at h
  rw [← Option.some.inj h]
  exact List.getLast_mem hne

theorem set_get_eq_self {α : Type} (l : List α) (i : Nat) (hi : i < l.length) :
    l.set i (l.get ⟨i, hi⟩) = l := by
  apply List.ext_getElem
  · rw [List.length_set]
  · intro n h1 h2
    rw [List.getElem_set]
    by_cases h : i = n
    · subst h
      rw [if_pos rfl]
      rfl
    · rw [if_neg h]

theorem workerStep_dead (dec : Decision) (m : Maze) (vis : Finset Pos)
    (w : Worker) (h : w.alive = false) :
    workerStep dec m vis w = (m, vis, w, none, false) := by
  unfold workerStep
  rw [if_pos h]

theorem workerStep_retire (dec : Decision) (m : Maze) (vis : Finset Pos)
    (w w1 : Worker) (hw1 : backtrackLoop m vis w = w1) (h : w.alive = true)
    (h1 : w1.alive = false) :
    workerStep dec m vis w = (m, vis, w1, none, false) := by
  unfold workerStep
  rw [if_neg (by rw [h]; exact fun hc => Bool.noConfusion hc)]
  dsimp only
  rw [hw1, if_pos h1]

theorem workerStep_move (dec : Decision) (m : Maze) (vis : Finset Pos)
    (w w1 : Worker) (d : Dir) (hw1 : backtrackLoop m vis w = w1)
    (h : w.alive = true) (h1 : w1.alive = true)
    (hcn : unvisitedDirs m vis w1.cell ≠ [])
    (hns : ¬(dec.spawnFlag = true ∧
      2 ≤ (unvisitedDirs m vis w1.cell).length))
    (hd : (unvisitedDirs m vis w1.cell).getD
      (dec.k1 % (unvisitedDirs m vis w1.cell).length) .north = d)
    (hok : m.validCell (w1.cell.neighbor d) ∧ w1.cell.neighbor d ∉ vis) :
    workerStep dec m vis w =
      (m.removeWallCellDirection w1.cell d,
        insert (w1.cell.neighbor d) vis,
        ⟨w1.cell.neighbor d, w1.path ++ [w1.cell.neighbor d], w1.alive⟩,
        none, false) := by
  unfold workerStep
  rw [if_neg (by rw [h]; exact fun hc => Bool.noConfusion hc)]
  dsimp only
  rw [hw1, if_neg (by rw [h1]; exact fun hc => Bool.noConfusion hc),
    if_neg hcn, if_neg hns, hd, if_pos hok]
  rfl

theorem workerStep_spawn (dec : Decision) (m : Maze) (vis : Finset Pos)
    (w w1 : Worker) (d1 d2 : Dir) (hw1 : backtrackLoop m vis w = w1)
    (h : w.alive = true) (h1 : w1.alive = true)
    (hcn : unvisitedDirs m vis w1.cell ≠ [])
    (hsp : dec.spawnFlag = true ∧ 2 ≤ (unvisitedDirs m vis w1.cell).length)
    (hd1 : (unvisitedDirs m vis w1.cell).getD
      (dec.k1 % (unvisitedDirs m vis w1.cell).length) .north = d1)
    (hd2 : (unvisitedDirs m vis w1.cell).getD
      (if dec.k1 % (unvisitedDirs m vis w1.cell).length ≤
          dec.k2 % ((unvisitedDirs m vis w1.cell).length - 1) then
        dec.k2 % ((unvisitedDirs m vis w1.cell).length - 1) + 1
      else dec.k2 % ((unvisitedDirs m vis w1.cell).length - 1)) .north = d2)
    (hok : (m.removeWallCellDirection w1.cell d1).validCell
        (w1.cell.neighbor d2) ∧
      w1.cell.neighbor d2 ∉ insert (w1.cell.neighbor d1) vis) :
    workerStep dec m vis w =
      ((m.removeWallCellDirection w1.cell d1).removeWallCellDirection
          w1.cell d2,
        insert (w1.cell.neighbor d2) (insert (w1.cell.neighbor d1) vis),
        ⟨w1.cell.neighbor d2, w1.path ++ [w1.cell.neighbor d2], w1.alive⟩,
        some ⟨w1.cell.neighbor d1, [w1.cell.neighbor d1], true⟩, false) := by
  unfold workerStep
  rw [if_neg (by rw [h]; exact fun hc => Bool.noConfusion hc)]
  dsimp only
  rw [hw1, if_neg (by rw [h1]; exact fun hc => Bool.noConfusion hc),
    if_neg hcn, if_pos hsp, hd1, hd2, if_pos hok]
  rfl

/-- The unvisited count as a function of the maze and the visited set. -/
def unvisPair (m : Maze) (vis : Finset Pos) : Nat :=
  (validCellsFinset m \ vis).card

theorem unvisitedCount_eq_pair (s : GenState) :
    unvisitedCount s = unvisPair s.maze s.visited := rfl

theorem unvisPair_insert (m : Maze) (vis : Finset Pos) (c : Pos)
    (hc : m.validCell c) (hf : c ∉ vis) :
    unvisPair m (insert c vis) + 1 = unvisPair m vis := by
  unfold unvisPair
  have hcm : c ∈ validCellsFinset m \ vis :=
    Finset.mem_sdiff.mpr ⟨mem_validCellsFinset.mpr hc, hf⟩
  have h1 : validCellsFinset m \ insert c vis =
      (validCellsFinset m \ vis).erase c := by
    ext x
    simp only [Finset.mem_sdiff, Finset.mem_insert, Finset.mem_erase]
    tauto
  rw [h1, Finset.card_erase_of_mem hcm]
  have h2 : 1 ≤ (validCellsFinset m \ vis).card :=
    Finset.card_pos.mpr ⟨c, hcm⟩
  omega

theorem unvisPair_eq_of_dims {m m' : Maze} (h1 : m.rows = m'.rows)
    (h2 : m.cols = m'.cols) (vis : Finset Pos) :
    unvisPair m vis = unvisPair m' vis := by
  unfold unvisPair
  rw [validCellsFinset_eq_of_dims h1 h2]

theorem validCell_removeWallCD (m : Maze) (p : Pos) (d : Dir) (q : Pos) :
    (m.removeWallCellDirection p d).validCell q ↔ m.validCell q := by
  unfold Maze.removeWallCellDirection
  exact validCell_removeWall m _ q

theorem length_set_append {α : Type} (ws : List α) (i : Nat) (w' : α)
    (t : List α) : ((ws.set i w') ++ t).length = ws.length + t.length := by
  rw [List.length_append, List.length_set]

theorem get_set_append_self {α : Type} (ws : List α) (i : Nat)
    (hi : i < ws.length) (w' : α) (t : List α)
    (hj : i < ((ws.set i w') ++ t).length) :
    ((ws.set i w') ++ t).get ⟨i, hj⟩ = w' := by
  rw [List.get_eq_getElem,
    List.getElem_append_left (by rw [List.length_set]; exact hi),
    List.getElem_set, if_pos rfl]

theorem get_set_append_ne {α : Type} (ws : List α) (i : Nat) (w' : α)
    (t : List α) (j : Nat) (hj : j < ws.length) (hne : j ≠ i)
    (hj' : j < ((ws.set i w') ++ t).length) :
    ((ws.set i w') ++ t).get ⟨j, hj'⟩ = ws.get ⟨j, hj⟩ := by
  rw [List.get_eq_getElem,
    List.getElem_append_left (by rw [List.length_set]; exact hj),
    List.getElem_set, if_neg (fun he => hne he.symm)]
  rfl

theorem get_set_append_last {α : Type} (ws : List α) (i : Nat) (w' nwW : α)
    (hj : ws.length < ((ws.set i w') ++ [nwW]).length) :
    ((ws.set i w') ++ [nwW]).get ⟨ws.length, hj⟩ = nwW := by
  rw [List.get_eq_getElem,
    List.getElem_append_right (by rw [List.length_set])]
  simp [List.length_set]

theorem lt_len_set_append {α : Type} (ws : List α) (i : Nat) (w' : α)
    (t : List α) {j : Nat} (hj : j < ws.length) :
    j < ((ws.set i w') ++ t).length := by
  rw [length_set_append]
  omega

theorem len_lt_set_append_one {α : Type} (ws : List α) (i : Nat) (w' x : α) :
    ws.length < ((ws.set i w') ++ [x]).length := by
  rw [length_set_append]
  simp

/-- One `MazeWorker.step` inside the constructor pass: the invariant is
preserved, no `ValueError` is raised, the maze dimensions are unchanged, the
visited set grows, at most one worker is spawned (paid for by two fresh
visits), the combined measure `2·unvisited + alive` does not increase and
strictly decreases when the stepped worker was alive, and workers at other
indices are untouched. -/
theorem workerStep_inv (dec : Decision) (s : GenState) (i : Nat)
    (hi : i < s.workers.length) (hinv : GenInv s)
    (m' : Maze) (vis' : Finset Pos) (w' : Worker) (nw : Option Worker)
    (er : Bool)
    (hr : workerStep dec s.maze s.visited (s.workers.get ⟨i, hi⟩) =
      (m', vis', w', nw, er)) :
    GenInv ⟨m', (s.workers.set i w') ++ nw.toList, vis', s.error || er⟩ ∧
    er = false ∧
    m'.rows = s.maze.rows ∧ m'.cols = s.maze.cols ∧
    s.visited ⊆ vis' ∧
    nw.toList.length + 2 * unvisPair m' vis' ≤
      2 * unvisPair s.maze s.visited ∧
    2 * unvisPair m' vis' + aliveCount ((s.workers.set i w') ++ nw.toList) +
        (if (s.workers.get ⟨i, hi⟩).alive = true then 1 else 0) ≤
      2 * unvisPair s.maze s.visited + aliveCount s.workers ∧
    (∀ (j : Nat) (hj : j < s.workers.length)
        (hj' : j < ((s.workers.set i w') ++ nw.toList).length), j ≠ i →
      ((s.workers.set i w') ++ nw.toList).get ⟨j, hj'⟩ =
        s.workers.get ⟨j, hj⟩) := by
  have hwmem : s.workers.get ⟨i, hi⟩ ∈ s.workers := by
    simpa using List.getElem_mem hi
  by_cases halive : (s.workers.get ⟨i, hi⟩).alive = true
  case neg =>
    rw [Bool.not_eq_true] at halive
    rw [workerStep_dead dec _ _ _ halive] at hr
    simp only [Prod.mk.injEq] at hr
    obtain ⟨rfl, rfl, rfl, rfl, rfl⟩ := hr
    have hset : s.workers.set i (s.workers.get ⟨i, hi⟩) = s.workers :=
      set_get_eq_self s.workers i hi
    simp only [Option.toList, List.append_nil, Bool.or_false, hset]
    refine ⟨hinv, by trivial, by trivial, by trivial, Finset.Subset.refl _, ?_,
      ?_, ?_⟩
    · simp
    · rw [if_neg (by rw [halive]; exact fun hc => Bool.noConfusion hc)]
      omega
    · intro j hj hj' hne
      exact get_set_append_ne s.workers i _ _ j hj hne
        (lt_len_set_append s.workers i _ _ hj)
  case pos =>
    have hlast0 := hinv.aliveLast _ hwmem halive
    obtain ⟨hs1, hs2, hs3, hs4, hs5⟩ :=
      backtrackLoop_spec s.maze s.visited
        ((s.workers.get ⟨i, hi⟩).path.length + 1) (s.workers.get ⟨i, hi⟩)
        (by rw [halive]; simp) (fun _ => hlast0)
    set w1 := backtrackLoop s.maze s.visited (s.workers.get ⟨i, hi⟩)
      with hw1def
    by_cases halive1 : w1.alive = true
    case neg =>
      rw [Bool.not_eq_true] at halive1
      rw [workerStep_retire dec s.maze s.visited _ w1 hw1def.symm halive
        halive1] at hr
      simp only [Prod.mk.injEq] at hr
      obtain ⟨rfl, rfl, rfl, rfl, rfl⟩ := hr
      simp only [Option.toList, Bool.or_false]
      have hacset := aliveCount_set s.workers i hi w1
      rw [if_pos halive,
        if_neg (fun hc => by rw [halive1] at hc; exact Bool.noConfusion hc)]
        at hacset
      refine ⟨?_, by trivial, by trivial, by trivial, Finset.Subset.refl _, ?_,
        ?_, ?_⟩
      · refine ⟨hinv.err, hinv.visValid, hinv.rootVis, ?_, ?_, ?_,
          hinv.wallVis, hinv.conn, hinv.count, hinv.acy⟩
        · intro w'' hw'' p hp
          rcases List.mem_append.mp hw'' with hw2 | hw2
          · rcases List.mem_or_eq_of_mem_set hw2 with hold | rfl
            · exact hinv.pathVis w'' hold p hp
            · exact hinv.pathVis _ hwmem p (hs1 p hp)
          · simp at hw2
        · intro w'' hw'' hal
          rcases List.mem_append.mp hw'' with hw2 | hw2
          · rcases List.mem_or_eq_of_mem_set hw2 with hold | rfl
            · exact hinv.aliveLast w'' hold hal
            · rw [halive1] at hal
              exact absurd hal (by simp)
          · simp at hw2
        · intro p hp
          rcases hinv.frontier p hp with ⟨j, haj, hpj⟩ | hcl
          · by_cases hji : (j : Nat) = i
            · have hget : s.workers.get j = s.workers.get ⟨i, hi⟩ := by
                congr 1
                exact Fin.ext hji
              rw [hget] at hpj
              rcases hs4 p hpj with hin | hcl
              · rw [hs5 halive1 halive] at hin
                simp at hin
              · exact Or.inr hcl
            · refine Or.inl ⟨⟨j.val, lt_len_set_append s.workers i _ _ j.isLt⟩,
                ?_, ?_⟩
              · rw [get_set_append_ne s.workers i w1 _ j.val j.isLt hji _]
                exact haj
              · rw [get_set_append_ne s.workers i w1 _ j.val j.isLt hji _]
                exact hpj
          · exact Or.inr hcl
      · simp
      · rw [aliveCount_append, if_pos halive, aliveCount_nil]
        omega
      · intro j hj hj' hne
        exact get_set_append_ne s.workers i w1 _ j hj hne hj'
    case pos =>
      obtain ⟨hlast1, hcn⟩ := hs3 halive1
      have hw1vis : w1.cell ∈ s.visited :=
        hinv.pathVis _ hwmem _ (hs1 _ (getLast?_mem_self hlast1))
      have hlen : 0 < (unvisitedDirs s.maze s.visited w1.cell).length :=
        List.length_pos.mpr hcn
      by_cases hsp : dec.spawnFlag = true ∧
          2 ≤ (unvisitedDirs s.maze s.visited w1.cell).length
      case neg =>
        set d := (unvisitedDirs s.maze s.visited w1.cell).getD
          (dec.k1 % (unvisitedDirs s.maze s.visited w1.cell).length) .north
          with hddef
        have hdmem : d ∈ unvisitedDirs s.maze s.visited w1.cell := by
          rw [hddef]
          exact getD_mem_of_lt (Nat.mod_lt _ hlen) .north
        obtain ⟨hdv, hdf⟩ := mem_unvisitedDirs.mp hdmem
        rw [workerStep_move dec s.maze s.visited _ w1 d hw1def.symm halive
          halive1 hcn hsp hddef.symm ⟨hdv, hdf⟩] at hr
        simp only [Prod.mk.injEq] at hr
        obtain ⟨rfl, rfl, rfl, rfl, rfl⟩ := hr
        obtain ⟨cv1, cv2, cv3, cv4, cv5, cv6, cv7, cv8⟩ :=
          carve_inv s.maze s.visited w1.cell d hinv.visValid hinv.rootVis
            hinv.wallVis hinv.conn hinv.count hinv.acy hw1vis hdv hdf
        have hacset := aliveCount_set s.workers i hi
          ⟨w1.cell.neighbor d, w1.path ++ [w1.cell.neighbor d], w1.alive⟩
        rw [if_pos halive, if_pos (show (⟨w1.cell.neighbor d,
          w1.path ++ [w1.cell.neighbor d], w1.alive⟩ : Worker).alive = true
          from halive1)] at hacset
        have hunv := unvisPair_insert s.maze s.visited (w1.cell.neighbor d)
          hdv hdf
        have hudim : unvisPair (s.maze.removeWallCellDirection w1.cell d)
            (insert (w1.cell.neighbor d) s.visited) =
            unvisPair s.maze (insert (w1.cell.neighbor d) s.visited) :=
          unvisPair_eq_of_dims cv7 cv8 _
        simp only [Option.toList, Bool.or_false]
        refine ⟨?_, by trivial, cv7, cv8, Finset.subset_insert _ _, ?_, ?_, ?_⟩
        · refine ⟨hinv.err, cv1, cv2, ?_, ?_, ?_, cv3, cv4, cv5, cv6⟩
          · intro w'' hw'' p hp
            rcases List.mem_append.mp hw'' with hw2 | hw2
            · rcases List.mem_or_eq_of_mem_set hw2 with hold | rfl
              · exact Finset.mem_insert_of_mem (hinv.pathVis w'' hold p hp)
              · rcases List.mem_append.mp hp with hp1 | hp1
                · exact Finset.mem_insert_of_mem
                    (hinv.pathVis _ hwmem p (hs1 p hp1))
                · rw [List.mem_singleton] at hp1
                  rw [hp1]
                  exact Finset.mem_insert_self _ _
            · simp at hw2
          · intro w'' hw'' hal
            rcases List.mem_append.mp hw'' with hw2 | hw2
            · rcases List.mem_or_eq_of_mem_set hw2 with hold | rfl
              · exact hinv.aliveLast w'' hold hal
              · exact List.getLast?_concat _
            · simp at hw2
          · intro p hp
            rcases Finset.mem_insert.mp hp with rfl | hpv
            · refine Or.inl ⟨⟨i, lt_len_set_append s.workers i _ _ hi⟩, ?_, ?_⟩
              · rw [get_set_append_self s.workers i hi _ _ _]
                exact halive1
              · rw [get_set_append_self s.workers i hi _ _ _]
                exact List.mem_append.mpr (Or.inr (List.mem_singleton.mpr rfl))
            · rcases hinv.frontier p hpv with ⟨j, haj, hpj⟩ | hcl
              · by_cases hji : (j : Nat) = i
                · have hget : s.workers.get j = s.workers.get ⟨i, hi⟩ := by
                    congr 1
                    exact Fin.ext hji
                  rw [hget] at hpj
                  rcases hs4 p hpj with hin | hcl
                  · refine Or.inl ⟨⟨i, lt_len_set_append s.workers i _ _ hi⟩,
                      ?_, ?_⟩
                    · rw [get_set_append_self s.workers i hi _ _ _]
                      exact halive1
                    · rw [get_set_append_self s.workers i hi _ _ _]
                      exact List.mem_append.mpr (Or.inl hin)
                  · exact Or.inr (allNbVisited_mono cv7.symm cv8.symm
                      (Finset.subset_insert _ _) hcl)
                · refine Or.inl ⟨⟨j.val,
                      lt_len_set_append s.workers i _ _ j.isLt⟩, ?_, ?_⟩
                  · rw [get_set_append_ne s.workers i _ _ j.val j.isLt hji _]
                    exact haj
                  · rw [get_set_append_ne s.workers i _ _ j.val j.isLt hji _]
                    exact hpj
              · exact Or.inr (allNbVisited_mono cv7.symm cv8.symm
                  (Finset.subset_insert _ _) hcl)
        · rw [hudim]
          simp only [List.length_nil]
          omega
        · rw [hudim, aliveCount_append, if_pos halive, aliveCount_nil]
          omega
        · intro j hj hj' hne
          exact get_set_append_ne s.workers i _ _ j hj hne hj'
      case pos =>
        have hlen1 : 0 < (unvisitedDirs s.maze s.visited w1.cell).length - 1 := by
          omega
        set i1 := dec.k1 % (unvisitedDirs s.maze s.visited w1.cell).length
          with hi1def
        set j0 := dec.k2 % ((unvisitedDirs s.maze s.visited w1.cell).length - 1)
          with hj0def
        have hi1 : i1 < (unvisitedDirs s.maze s.visited w1.cell).length := by
          rw [hi1def]
          exact Nat.mod_lt _ hlen
        have hj0 : j0 < (unvisitedDirs s.maze s.visited w1.cell).length - 1 := by
          rw [hj0def]
          exact Nat.mod_lt _ hlen1
        set j1 : Nat := if i1 ≤ j0 then j0 + 1 else j0 with hj1def
        have hj1 : j1 < (unvisitedDirs s.maze s.visited w1.cell).length := by
          rw [hj1def]
          by_cases h : i1 ≤ j0
          · rw [if_pos h]
            omega
          · rw [if_neg h]
            omega
        have hne1 : i1 ≠ j1 := by
          rw [hj1def]
          by_cases h : i1 ≤ j0
          · rw [if_pos h]
            omega
          · rw [if_neg h]
            omega
        set d1 := (unvisitedDirs s.maze s.visited w1.cell).getD i1 .north
          with hd1def
        set d2 := (unvisitedDirs s.maze s.visited w1.cell).getD j1 .north
          with hd2def
        have hd1mem : d1 ∈ unvisitedDirs s.maze s.visited w1.cell := by
          rw [hd1def]
          exact getD_mem_of_lt hi1 .north
        have hd2mem : d2 ∈ unvisitedDirs s.maze s.visited w1.cell := by
          rw [hd2def]
          exact getD_mem_of_lt hj1 .north
        have hd12 : d1 ≠ d2 := by
          rw [hd1def, hd2def, getD_eq_get hi1 .north, getD_eq_get hj1 .north]
          intro he
          have hfe := (List.Nodup.get_inj_iff
            (unvisitedDirs_nodup s.maze s.visited w1.cell)).mp he
          exact hne1 (congrArg Fin.val hfe)
        obtain ⟨hd1v, hd1f⟩ := mem_unvisitedDirs.mp hd1mem
        obtain ⟨hd2v, hd2f⟩ := mem_unvisitedDirs.mp hd2mem
        have hcne : w1.cell.neighbor d2 ≠ w1.cell.neighbor d1 :=
          fun he => hd12 (neighbor_dir_inj he).symm
        obtain ⟨c1v1, c1v2, c1v3, c1v4, c1v5, c1v6, c1v7, c1v8⟩ :=
          carve_inv s.maze s.visited w1.cell d1 hinv.visValid hinv.rootVis
            hinv.wallVis hinv.conn hinv.count hinv.acy hw1vis hd1v hd1f
        have hok2 : (s.maze.removeWallCellDirection w1.cell d1).validCell
            (w1.cell.neighbor d2) ∧
            w1.cell.neighbor d2 ∉ insert (w1.cell.neighbor d1) s.visited := by
          refine ⟨(validCell_removeWallCD _ _ _ _).mpr hd2v, ?_⟩
          intro hmem
          rcases Finset.mem_insert.mp hmem with he | hmem2
          · exact hcne he
          · exact hd2f hmem2
        rw [workerStep_spawn dec s.maze s.visited _ w1 d1 d2 hw1def.symm
          halive halive1 hcn hsp hd1def.symm
          (by rw [hd2def, hj1def, hi1def, hj0def]) hok2] at hr
        simp only [Prod.mk.injEq] at hr
        obtain ⟨rfl, rfl, rfl, rfl, rfl⟩ := hr
        obtain ⟨c2v1, c2v2, c2v3, c2v4, c2v5, c2v6, c2v7, c2v8⟩ :=
          carve_inv (s.maze.removeWallCellDirection w1.cell d1)
            (insert (w1.cell.neighbor d1) s.visited) w1.cell d2
            c1v1 c1v2 c1v3 c1v4 c1v5 c1v6
            (Finset.mem_insert_of_mem hw1vis) hok2.1 hok2.2
        have hrowsT : ((s.maze.removeWallCellDirection w1.cell
            d1).removeWallCellDirection w1.cell d2).rows = s.maze.rows :=
          c2v7.trans c1v7
        have hcolsT : ((s.maze.removeWallCellDirection w1.cell
            d1).removeWallCellDirection w1.cell d2).cols = s.maze.cols :=
          c2v8.trans c1v8
        have hsub2 : s.visited ⊆ insert (w1.cell.neighbor d2)
            (insert (w1.cell.neighbor d1) s.visited) :=
          fun x hx => Finset.mem_insert_of_mem (Finset.mem_insert_of_mem hx)
        have hacset := aliveCount_set s.workers i hi
          ⟨w1.cell.neighbor d2, w1.path ++ [w1.cell.neighbor d2], w1.alive⟩
        rw [if_pos halive, if_pos (show (⟨w1.cell.neighbor d2,
          w1.path ++ [w1.cell.neighbor d2], w1.alive⟩ : Worker).alive = true
          from halive1)] at hacset
        have hunv1 := unvisPair_insert s.maze s.visited (w1.cell.neighbor d1)
          hd1v hd1f
        have hunv2 := unvisPair_insert s.maze
          (insert (w1.cell.neighbor d1) s.visited) (w1.cell.neighbor d2)
          hd2v hok2.2
        have hudim : unvisPair ((s.maze.removeWallCellDirection w1.cell
            d1).removeWallCellDirection w1.cell d2)
            (insert (w1.cell.neighbor d2)
              (insert (w1.cell.neighbor d1) s.visited)) =
            unvisPair s.maze (insert (w1.cell.neighbor d2)
              (insert (w1.cell.neighbor d1) s.visited)) :=
          unvisPair_eq_of_dims hrowsT hcolsT _
        simp only [Option.toList, Bool.or_false]
        refine ⟨?_, by trivial, hrowsT, hcolsT, hsub2, ?_, ?_, ?_⟩
        · refine ⟨hinv.err, c2v1, c2v2, ?_, ?_, ?_, c2v3, c2v4, c2v5, c2v6⟩
          · intro w'' hw'' p hp
            rcases List.mem_append.mp hw'' with hw2 | hw2
            · rcases List.mem_or_eq_of_mem_set hw2 with hold | rfl
              · exact hsub2 (hinv.pathVis w'' hold p hp)
              · rcases List.mem_append.mp hp with hp1 | hp1
                · exact hsub2 (hinv.pathVis _ hwmem p (hs1 p hp1))
                · rw [List.mem_singleton] at hp1
                  rw [hp1]
                  exact Finset.mem_insert_self _ _
            · rw [List.mem_singleton] at hw2
              subst hw2
              rw [List.mem_singleton] at hp
              rw [hp]
              exact Finset.mem_insert_of_mem (Finset.mem_insert_self _ _)
          · intro w'' hw'' hal
            rcases List.mem_append.mp hw'' with hw2 | hw2
            · rcases List.mem_or_eq_of_mem_set hw2 with hold | rfl
              · exact hinv.aliveLast w'' hold hal
              · exact List.getLast?_concat _
            · rw [List.mem_singleton] at hw2
              subst hw2
              rfl
          · intro p hp
            rcases Finset.mem_insert.mp hp with rfl | hp2
            · refine Or.inl ⟨⟨i, lt_len_set_append s.workers i _ _ hi⟩, ?_, ?_⟩
              · rw [get_set_append_self s.workers i hi _ _ _]
                exact halive1
              · rw [get_set_append_self s.workers i hi _ _ _]
                exact List.mem_append.mpr (Or.inr (List.mem_singleton.mpr rfl))
            · rcases Finset.mem_insert.mp hp2 with rfl | hpv
              · refine Or.inl ⟨⟨s.workers.length,
                  len_lt_set_append_one s.workers i _ _⟩, ?_, ?_⟩
                · rw [get_set_append_last s.workers i _ _ _]
                · rw [get_set_append_last s.workers i _ _ _]
                  exact List.mem_singleton.mpr rfl
              · rcases hinv.frontier p hpv with ⟨j, haj, hpj⟩ | hcl
                · by_cases hji : (j : Nat) = i
                  · have hget : s.workers.get j = s.workers.get ⟨i, hi⟩ := by
                      congr 1
                      exact Fin.ext hji
                    rw [hget] at hpj
                    rcases hs4 p hpj with hin | hcl
                    · refine Or.inl ⟨⟨i, lt_len_set_append s.workers i _ _ hi⟩,
                        ?_, ?_⟩
                      · rw [get_set_append_self s.workers i hi _ _ _]
                        exact halive1
                      · rw [get_set_append_self s.workers i hi _ _ _]
                        exact List.mem_append.mpr (Or.inl hin)
                    · exact Or.inr (allNbVisited_mono hrowsT.symm hcolsT.symm
                        hsub2 hcl)
                  · refine Or.inl ⟨⟨j.val,
                        lt_len_set_append s.workers i _ _ j.isLt⟩, ?_, ?_⟩
                    · rw [get_set_append_ne s.workers i _ _ j.val j.isLt hji _]
                      exact haj
                    · rw [get_set_append_ne s.workers i _ _ j.val j.isLt hji _]
                      exact hpj
                · exact Or.inr (allNbVisited_mono hrowsT.symm hcolsT.symm
                    hsub2 hcl)
        · rw [hudim]
          simp only [List.length_cons, List.length_nil]
          omega
        · rw [hudim, aliveCount_append, if_pos halive]
          have h1 : aliveCount [(⟨w1.cell.neighbor d1,
              [w1.cell.neighbor d1], true⟩ : Worker)] = 1 := rfl
          rw [h1]
          omega
        · intro j hj hj' hne
          exact get_set_append_ne s.workers i _ _ j hj hne hj'

/-- One pass of `MazeConstructor.step` (the indexed loop `processFrom`),
given enough fuel: the invariant is preserved, dimensions are kept, the
visited set grows, the measure `2·unvisited + alive` does not increase, and
it strictly decreases if some worker at an unprocessed index was alive. -/
theorem processFrom_spec (oracle : Nat → Decision) :
    ∀ (fuel : Nat) (s : GenState) (i n : Nat), GenInv s →
      s.workers.length - i + 2 * unvisPair s.maze s.visited ≤ fuel →
      GenInv (processFrom oracle fuel s i n).1 ∧
      (processFrom oracle fuel s i n).1.maze.rows = s.maze.rows ∧
      (processFrom oracle fuel s i n).1.maze.cols = s.maze.cols ∧
      s.visited ⊆ (processFrom oracle fuel s i n).1.visited ∧
      2 * unvisPair (processFrom oracle fuel s i n).1.maze
          (processFrom oracle fuel s i n).1.visited +
          aliveCount (processFrom oracle fuel s i n).1.workers ≤
        2 * unvisPair s.maze s.visited + aliveCount s.workers ∧
      (∀ (j : Nat) (hj : j < s.workers.length), i ≤ j →
        (s.workers.get ⟨j, hj⟩).alive = true →
        2 * unvisPair (processFrom oracle fuel s i n).1.maze
            (processFrom oracle fuel s i n).1.visited +
            aliveCount (processFrom oracle fuel s i n).1.workers + 1 ≤
          2 * unvisPair s.maze s.visited + aliveCount s.workers) := by
  intro fuel
  induction fuel with
  | zero =>
      intro s i n hinv hfuel
      have hlen : s.workers.length ≤ i := by omega
      simp only [processFrom]
      rw [if_neg (by omega)]
      refine ⟨hinv, rfl, rfl, Finset.Subset.refl _, le_refl _, ?_⟩
      intro j hj hij _
      omega
  | succ fuel ih =>
      intro s i n hinv hfuel
      by_cases h : i < s.workers.length
      case neg =>
        simp only [processFrom]
        rw [dif_neg h]
        refine ⟨hinv, rfl, rfl, Finset.Subset.refl _, le_refl _, ?_⟩
        intro j hj hij _
        omega
      case pos =>
        obtain ⟨⟨m', vis', w', nw, er⟩, hr⟩ :
            ∃ t, workerStep (oracle n) s.maze s.visited
              (s.workers.get ⟨i, h⟩) = t := ⟨_, rfl⟩
        obtain ⟨hinv1, herr, hrows1, hcols1, hvis1, hfuel1, hmeas1, hget1⟩ :=
          workerStep_inv (oracle n) s i h hinv m' vis' w' nw er hr
        have hstep : processFrom oracle (fuel + 1) s i n =
            processFrom oracle fuel
              ⟨m', (s.workers.set i w') ++ nw.toList, vis', s.error || er⟩
              (i + 1) (n + 1) := by
          simp only [processFrom]
          rw [dif_pos h, hr]
        rw [hstep]
        have hmeas1' : 2 * unvisPair m' vis' +
            aliveCount ((s.workers.set i w') ++ nw.toList) ≤
            2 * unvisPair s.maze s.visited + aliveCount s.workers :=
          le_trans (Nat.le_add_right _ _) hmeas1
        have hfuel2 :
            (⟨m', (s.workers.set i w') ++ nw.toList, vis',
              s.error || er⟩ : GenState).workers.length - (i + 1) +
            2 * unvisPair m' vis' ≤ fuel := by
          have hl := length_set_append s.workers i w' nw.toList
          dsimp only
          omega
        obtain ⟨ih1, ih2, ih3, ih4, ih5, ih6⟩ :=
          ih ⟨m', (s.workers.set i w') ++ nw.toList, vis', s.error || er⟩
            (i + 1) (n + 1) hinv1 hfuel2
        dsimp only at ih2 ih3 ih4 ih5 ih6
        refine ⟨ih1, ih2.trans hrows1, ih3.trans hcols1,
          fun x hx => ih4 (hvis1 hx), by omega, ?_⟩
        intro j hj hij halj
        by_cases hji : j = i
        · subst hji
          have hmeq : (if (s.workers.get ⟨j, h⟩).alive = true then 1
              else 0) = 1 := if_pos (by exact halj)
          rw [hmeq] at hmeas1
          omega
        · have hj1 : j < ((s.workers.set i w') ++ nw.toList).length := by
            rw [length_set_append]
            omega
          have hone := hget1 j hj hj1 hji
          have halj1 : (((s.workers.set i w') ++ nw.toList).get
              ⟨j, hj1⟩).alive = true := by
            rw [hone]
            exact halj
          have hstrict := ih6 j hj1 (by omega) halj1
          omega

/-- `MazeConstructor.run_all`, with fuel at least the measure: the invariant
is preserved, the dimensions are kept, visited grows, and at the end every
worker has retired. -/
theorem runAllAux_spec (oracle : Nat → Decision) :
    ∀ (fuel : Nat) (s : GenState) (n : Nat), GenInv s →
      2 * unvisPair s.maze s.visited + aliveCount s.workers ≤ fuel →
      GenInv (runAllAux oracle fuel s n) ∧
      (runAllAux oracle fuel s n).maze.rows = s.maze.rows ∧
      (runAllAux oracle fuel s n).maze.cols = s.maze.cols ∧
      s.visited ⊆ (runAllAux oracle fuel s n).visited ∧
      (runAllAux oracle fuel s n).workers.any (·.alive) = false := by
  intro fuel
  induction fuel with
  | zero =>
      intro s n hinv hfuel
      have hany : s.workers.any (·.alive) = false := by
        by_contra hc
        rw [Bool.not_eq_false] at hc
        have := aliveCount_pos_of_any s.workers hc
        omega
      simp only [runAllAux]
      rw [if_neg (by rw [hany]; exact fun hc => Bool.noConfusion hc)]
      exact ⟨hinv, rfl, rfl, Finset.Subset.refl _, hany⟩
  | succ fuel ih =>
      intro s n hinv hfuel
      by_cases hany : s.workers.any (·.alive) = true
      case pos =>
        obtain ⟨pf1, pf2, pf3, pf4, pf5, pf6⟩ :=
          processFrom_spec oracle (passFuel s) s 0 n hinv (by
            unfold passFuel
            rw [unvisitedCount_eq_pair]
            omega)
        obtain ⟨w0, hw0mem, hw0al⟩ := List.any_eq_true.mp hany
        obtain ⟨j, hgetj⟩ := List.mem_iff_get.mp hw0mem
        have hstrict := pf6 j.val j.isLt (Nat.zero_le _)
          (by rw [show s.workers.get ⟨j.val, j.isLt⟩ = w0 from hgetj]
              exact hw0al)
        obtain ⟨r1, r2, r3, r4, r5⟩ :=
          ih (processFrom oracle (passFuel s) s 0 n).1
            (processFrom oracle (passFuel s) s 0 n).2 pf1 (by omega)
        have hstep : runAllAux oracle (fuel + 1) s n =
            runAllAux oracle fuel (processFrom oracle (passFuel s) s 0 n).1
              (processFrom oracle (passFuel s) s 0 n).2 := by
          simp only [runAllAux]
          rw [if_pos hany]
        rw [hstep]
        exact ⟨r1, r2.trans pf2, r3.trans pf3, fun x hx => r4 (pf4 hx), r5⟩
      case neg =>
        rw [Bool.not_eq_true] at hany
        simp only [runAllAux]
        rw [if_neg (by rw [hany]; exact fun hc => Bool.noConfusion hc)]
        exact ⟨hinv, rfl, rfl, Finset.Subset.refl _, hany⟩

/-- The invariant holds at the start of `make_maze`'s construction: one
worker at `Position(0, 0)`, only that cell visited, all interior walls up. -/
theorem genInv_init (rows cols : Int) (exits : List MazeExit)
    (hr : 1 ≤ rows) (hc : 1 ≤ cols) :
    GenInv ⟨mazeInit rows cols exits, [⟨startCell, [startCell], true⟩],
      {startCell}, false⟩ := by
  have hrows := mazeInit_rows rows cols exits
  have hcols := mazeInit_cols rows cols exits
  have hvalidroot : (mazeInit rows cols exits).validCell startCell := by
    unfold Maze.validCell startCell
    rw [hrows, hcols]
    dsimp only
    omega
  have hnoopen : ∀ p d, (mazeInit rows cols exits).validCell p →
      (mazeInit rows cols exits).validCell (p.neighbor d) →
      (mazeInit rows cols exits).cellWalls p d = true := by
    intro p d hp hq
    have hint := shared_interior _ p d hp hq
    rw [cellWalls_eq_retrieve_interior _ p d hint]
    exact mazeInit_interior_true rows cols exits _ hint
  refine ⟨rfl, ?_, ?_, ?_, ?_, ?_, ?_, ?_, ?_, ?_⟩
  · intro p hp
    rw [Finset.mem_singleton] at hp
    rw [hp]
    exact hvalidroot
  · exact Finset.mem_singleton_self _
  · intro w hw p hp
    rw [List.mem_singleton] at hw
    subst hw
    rw [List.mem_singleton] at hp
    rw [hp]
    exact Finset.mem_singleton_self _
  · intro w hw _
    rw [List.mem_singleton] at hw
    subst hw
    rfl
  · intro p hp
    rw [Finset.mem_singleton] at hp
    subst hp
    exact Or.inl ⟨⟨0, by simp⟩, rfl, List.mem_singleton.mpr rfl⟩
  · intro p d hp hq hcw
    rw [hnoopen p d hp hq] at hcw
    exact absurd hcw (by simp)
  · intro p hp
    rw [Finset.mem_singleton] at hp
    subst hp
    exact Relation.ReflTransGen.refl
  · rw [openInteriorCount_mazeInit]
    simp
  · refine isAcyclic_of_no_adj ?_
    intro a b hadj
    obtain ⟨ha, hb, d, rfl, hcw⟩ := hadj
    rw [hnoopen a d ha hb] at hcw
    exact Bool.noConfusion hcw

/-- When every worker has retired, the invariant's frontier clause closes
the visited set under grid adjacency, so it covers every valid cell (every
valid cell is reachable from `(0, 0)` by south/east unit steps). -/
theorem final_coverage (s : GenState) (hinv : GenInv s)
    (hnone : s.workers.any (·.alive) = false) :
    ∀ p, s.maze.validCell p → p ∈ s.visited := by
  have hclosed : ∀ p ∈ s.visited, allNbVisited s.maze s.visited p := by
    intro p hp
    rcases hinv.frontier p hp with ⟨j, haj, hpj⟩ | hcl
    · exfalso
      have hmem : s.workers.get j ∈ s.workers := by
        simpa using List.getElem_mem j.isLt
      rw [List.any_eq_false] at hnone
      exact hnone _ hmem haj
    · exact hcl
  have main : ∀ N (r c : Int), (r + c).toNat ≤ N →
      s.maze.validCell ⟨r, c⟩ → (⟨r, c⟩ : Pos) ∈ s.visited := by
    intro N
    induction N with
    | zero =>
        intro r c hN hv
        have hv' := hv
        unfold Maze.validCell at hv'
        dsimp only at hv'
        have hr0 : r = 0 := by omega
        have hc0 : c = 0 := by omega
        subst hr0
        subst hc0
        exact hinv.rootVis
    | succ N ihN =>
        intro r c hN hv
        have hv' := hv
        unfold Maze.validCell at hv'
        dsimp only at hv'
        by_cases hle : (r + c).toNat ≤ N
        · exact ihN r c hle hv
        · by_cases hr1 : 1 ≤ r
          · have hq : s.maze.validCell ⟨r - 1, c⟩ := by
              unfold Maze.validCell
              dsimp only
              omega
            have hqin := ihN (r - 1) c (by omega) hq
            have he : (⟨r - 1, c⟩ : Pos).neighbor .south = ⟨r, c⟩ := by
              show (⟨r - 1 + 1, c⟩ : Pos) = ⟨r, c⟩
              rw [Pos.mk.injEq]
              exact ⟨by omega, rfl⟩
            have hval : s.maze.validCell ((⟨r - 1, c⟩ : Pos).neighbor .south) := by
              rw [he]
              exact hv
            have hres := hclosed _ hqin .south hval
            rw [he] at hres
            exact hres
          · have hq : s.maze.validCell ⟨r, c - 1⟩ := by
              unfold Maze.validCell
              dsimp only
              omega
            have hqin := ihN r (c - 1) (by omega) hq
            have he : (⟨r, c - 1⟩ : Pos).neighbor .east = ⟨r, c⟩ := by
              show (⟨r, c - 1 + 1⟩ : Pos) = ⟨r, c⟩
              rw [Pos.mk.injEq]
              exact ⟨rfl, by omega⟩
            have hval : s.maze.validCell ((⟨r, c - 1⟩ : Pos).neighbor .east) := by
              rw [he]
              exact hv
            have hres := hclosed _ hqin .east hval
            rw [he] at hres
            exact hres
  intro p hp
  obtain ⟨r, c⟩ := p
  exact main ((r + c).toNat) r c (le_refl _) hp

theorem visited_eq_validCells (s : GenState) (hinv : GenInv s)
    (hnone : s.workers.any (·.alive) = false) :
    s.visited = validCellsFinset s.maze := by
  apply Finset.Subset.antisymm
  · intro p hp
    exact mem_validCellsFinset.mpr (hinv.visValid p hp)
  · intro p hp
    exact final_coverage s hinv hnone p (mem_validCellsFinset.mp hp)

/-- The open-interior-wall graph restricted to the maze's valid cells. -/
def mazeGraph (m : Maze) : SimpleGraph {p : Pos // m.validCell p} :=
  SimpleGraph.comap Subtype.val (posGraph m)

theorem mazeGraph_isAcyclic (m : Maze) (h : (posGraph m).IsAcyclic) :
    (mazeGraph m).IsAcyclic := by
  intro a c hc
  exact h (c.map (⟨Subtype.val, fun hadj => hadj⟩ : mazeGraph m →g posGraph m))
    (hc.map Subtype.val_injective)

theorem reachable_of_rtg (m : Maze) {p : Pos}
    (hroot : m.validCell startCell)
    (h : Relation.ReflTransGen (openAdj m) startCell p) :
    ∀ hp : m.validCell p,
      (mazeGraph m).Reachable ⟨startCell, hroot⟩ ⟨p, hp⟩ := by
  induction h with
  | refl =>
      intro hp
      exact SimpleGraph.Reachable.refl _
  | tail hab hbc ih =>
      intro hp
      exact SimpleGraph.Reachable.trans (ih hbc.1)
        (SimpleGraph.Adj.reachable hbc)

theorem mazeGraph_connected (m : Maze) (hroot : m.validCell startCell)
    (hall : ∀ p, m.validCell p →
      Relation.ReflTransGen (openAdj m) startCell p) :
    (mazeGraph m).Connected := by
  rw [SimpleGraph.connected_iff]
  refine ⟨?_, ⟨⟨startCell, hroot⟩⟩⟩
  intro a b
  obtain ⟨pa, hpa⟩ := a
  obtain ⟨pb, hpb⟩ := b
  exact ((reachable_of_rtg m hroot (hall pa hpa) hpa).symm).trans
    (reachable_of_rtg m hroot (hall pb hpb) hpb)

set_option maxHeartbeats 1000000 in
/-- **C1.** For every `rows ≥ 1` and `cols ≥ 1`, every exit list, and every
outcome of the random choices (the oracle supplies every spawn coin and
index draw, so this covers every spawn probability in `[0, 1]`), the maze
returned by `make_maze` is a perfect maze: the construction raises no
error, the open-interior-wall graph on the `rows × cols` valid cells is a
single spanning tree (connected and acyclic), every cell is joined to every
other cell by exactly one simple open-wall path, and the number of interior
walls removed during generation equals `rows·cols − 1` (stated as
`count + 1 = rows·cols`; every interior wall starts present and carving
only ever opens interior walls). -/
theorem make_maze_perfect (rows cols : Int) (exits : List MazeExit)
    (oracle : Nat → Decision) (hr : 1 ≤ rows) (hc : 1 ≤ cols) :
    (makeMazeState rows cols exits oracle).error = false ∧
    (mazeGraph (makeMaze rows cols exits oracle)).IsTree ∧
    (∀ a b : {p : Pos // (makeMaze rows cols exits oracle).validCell p},
      ∃! w : (mazeGraph (makeMaze rows cols exits oracle)).Walk a b,
        w.IsPath) ∧
    openInteriorCount (makeMaze rows cols exits oracle) + 1 =
      rows.toNat * cols.toNat := by
  have hinit := genInv_init rows cols exits hr hc
  have hrows0 := mazeInit_rows rows cols exits
  have hcols0 := mazeInit_cols rows cols exits
  have hrootV : (mazeInit rows cols exits).validCell startCell := by
    unfold Maze.validCell startCell
    rw [hrows0, hcols0]
    dsimp only
    omega
  have hcardV : (validCellsFinset (mazeInit rows cols exits)).card =
      rows.toNat * cols.toNat := by
    rw [validCellsFinset_card, hrows0, hcols0]
  have hUP : unvisPair (mazeInit rows cols exits) {startCell} + 1 =
      rows.toNat * cols.toNat := by
    unfold unvisPair
    rw [Finset.sdiff_singleton_eq_erase,
      Finset.card_erase_of_mem (mem_validCellsFinset.mpr hrootV), hcardV]
    have h1 : 1 ≤ rows.toNat := by omega
    have h2 : 1 ≤ cols.toNat := by omega
    have h3 := Nat.mul_le_mul h1 h2
    omega
  have hfuel : 2 * unvisPair (mazeInit rows cols exits) {startCell} +
      aliveCount [(⟨startCell, [startCell], true⟩ : Worker)] ≤
      genFuel rows cols := by
    have hA0 : aliveCount [(⟨startCell, [startCell], true⟩ : Worker)] = 1 :=
      rfl
    unfold genFuel
    rw [hA0]
    omega
  obtain ⟨hfin, hfrows, hfcols, hfsub, hfany⟩ :=
    runAllAux_spec oracle (genFuel rows cols)
      ⟨mazeInit rows cols exits, [⟨startCell, [startCell], true⟩],
        {startCell}, false⟩ 0 hinit hfuel
  have hMrows : (makeMaze rows cols exits oracle).rows = rows :=
    hfrows.trans hrows0
  have hMcols : (makeMaze rows cols exits oracle).cols = cols :=
    hfcols.trans hcols0
  have hveq : (makeMazeState rows cols exits oracle).visited =
      validCellsFinset (makeMaze rows cols exits oracle) :=
    visited_eq_validCells _ hfin hfany
  have hMroot : (makeMaze rows cols exits oracle).validCell startCell := by
    unfold Maze.validCell startCell
    rw [hMrows, hMcols]
    dsimp only
    omega
  have hall : ∀ p, (makeMaze rows cols exits oracle).validCell p →
      Relation.ReflTransGen (openAdj (makeMaze rows cols exits oracle))
        startCell p := by
    intro p hp
    exact hfin.conn p (final_coverage _ hfin hfany p hp)
  have htree : (mazeGraph (makeMaze rows cols exits oracle)).IsTree :=
    ⟨mazeGraph_connected _ hMroot hall, mazeGraph_isAcyclic _ hfin.acy⟩
  have hcard : (makeMazeState rows cols exits oracle).visited.card =
      rows.toNat * cols.toNat := by
    rw [hveq, validCellsFinset_card, hMrows, hMcols]
  exact ⟨hfin.err, htree,
    (SimpleGraph.isTree_iff_existsUnique_path.mp htree).2,
    hfin.count.trans hcard⟩

/-- Witness for `make_maze_perfect`: at `rows = cols = 1`, no exits and the
constant oracle, the hypotheses hold and the conclusion follows by applying
the theorem. -/
theorem make_maze_perfect_witness :
    ((1 : Int) ≤ 1 ∧ (1 : Int) ≤ 1) ∧
      ((makeMazeState 1 1 [] (fun _ => ⟨false, 0, 0⟩)).error = false ∧
        (mazeGraph (makeMaze 1 1 [] (fun _ => ⟨false, 0, 0⟩))).IsTree ∧
        (∀ a b : {p : Pos //
            (makeMaze 1 1 [] (fun _ => ⟨false, 0, 0⟩)).validCell p},
          ∃! w : (mazeGraph (makeMaze 1 1 []
              (fun _ => ⟨false, 0, 0⟩))).Walk a b, w.IsPath) ∧
        openInteriorCount (makeMaze 1 1 [] (fun _ => ⟨false, 0, 0⟩)) + 1 =
          (1 : Int).toNat * (1 : Int).toNat) :=
  ⟨⟨by decide, by decide⟩,
    make_maze_perfect 1 1 [] (fun _ => ⟨false, 0, 0⟩) (by decide) (by decide)⟩

end Emmaze
